import Mathlib

/-!
Verification of the recitation alignment and scoring engine of the
quran-recitation repository, against its natural-language specification.

Text is modelled as `List Char` (`Str`); JavaScript strings are sequences of
UTF-16 code units, and every character handled by this code base lies in the
Basic Multilingual Plane, where code units and code points coincide, so a
list of characters is a faithful model.  JavaScript regular-expression
`replace` calls with character classes are modelled as `filter`/`map`; the
global string-pattern replace is modelled as a leftmost, non-overlapping scan
(`replaceAll`).  Arithmetic on scores is modelled over `ℚ`/`ℤ` with
`Math.round x = ⌊x + 1/2⌋`.
-/

abbrev Str := List Char

/-- Character-range test used to model regex character classes. -/
def inRange (lo hi : Nat) (c : Char) : Bool :=
  decide (lo ≤ c.toNat) && decide (c.toNat ≤ hi)

/-- Plain alef U+0627. -/
def alefChar : Char := Char.ofNat 0x627

/-- Superscript alef U+0670. -/
def superAlef : Char := Char.ofNat 0x670

/-- Model of stripDiacritics (src/lib/quran-data.ts, first variant): five
sequential character-class removals, in source order: U+064B–U+065F,
U+0610–U+061A, U+06D6–U+06ED, U+0670, U+0653–U+0656. -/
def stripDiacritics (s : Str) : Str :=
  ((((s.filter (fun c => !(inRange 0x64B 0x65F c))).filter
      (fun c => !(inRange 0x610 0x61A c))).filter
      (fun c => !(inRange 0x6D6 0x6ED c))).filter
      (fun c => !(c == superAlef))).filter
      (fun c => !(inRange 0x653 0x656 c))

/-- Fuelled leftmost non-overlapping global replacement, modelling
String.prototype.replace with a global literal-pattern regex.  The fuel is
always instantiated with the string length, which is sufficient. -/
def replaceAllGo (pat rep : Str) : Nat → Str → Str
  | _, [] => []
  | 0, s => s
  | fuel + 1, c :: cs =>
    if !pat.isEmpty && pat.isPrefixOf (c :: cs) then
      rep ++ replaceAllGo pat rep fuel (cs.drop (pat.length - 1))
    else
      c :: replaceAllGo pat rep fuel cs

def replaceAll (pat rep s : Str) : Str := replaceAllGo pat rep s.length s

/-- The letterMappings table of normalizeArabic, in JavaScript object
insertion order (which Object.entries preserves). -/
def letterMappings : List (Str × Str) := [
  ("ألف لام ميم".toList, "الم".toList),
  ("الف لام ميم".toList, "الم".toList),
  ("ألف لام ميم صاد".toList, "المص".toList),
  ("ألف لام راء".toList, "الر".toList),
  ("الف لام راء".toList, "الر".toList),
  ("ألف لام ميم راء".toList, "المر".toList),
  ("كاف ها يا عين صاد".toList, "كهيعص".toList),
  ("طه".toList, "طه".toList),
  ("طا ها".toList, "طه".toList),
  ("طاء ها".toList, "طه".toList),
  ("يا سين".toList, "يس".toList),
  ("يا س".toList, "يس".toList),
  ("صاد".toList, "ص".toList),
  ("حم".toList, "حم".toList),
  ("حا ميم".toList, "حم".toList),
  ("حا ميم عين سين قاف".toList, "حمعسق".toList),
  ("قاف".toList, "ق".toList),
  ("نون".toList, "ن".toList)]

/-- Apply each letter mapping in table order (the source's for-of loop over
Object.entries). -/
def applyMappings (s : Str) : Str :=
  letterMappings.foldl (fun acc kv => replaceAll kv.1 kv.2 acc) s

/-- Fold alef variants (U+0623, U+0625, U+0622, U+0671) to plain alef. -/
def foldAlefVariants (s : Str) : Str :=
  s.map (fun c =>
    if c == Char.ofNat 0x623 || c == Char.ofNat 0x625 ||
       c == Char.ofNat 0x622 || c == Char.ofNat 0x671 then alefChar else c)

/-- Fold alef maqsura (U+0649) to yaa (U+064A). -/
def foldAlefMaqsura (s : Str) : Str :=
  s.map (fun c => if c == Char.ofNat 0x649 then Char.ofNat 0x64A else c)

/-- Fold taa marbuta (U+0629) to haa (U+0647). -/
def foldTaaMarbuta (s : Str) : Str :=
  s.map (fun c => if c == Char.ofNat 0x629 then Char.ofNat 0x647 else c)

/-- Whitespace characters matched by the JavaScript regex class backslash-s
(restricted to the ASCII whitespace actually occurring in this data). -/
def wsChar (c : Char) : Bool :=
  c == ' ' || c == Char.ofNat 0x9 || c == Char.ofNat 0xA ||
  c == Char.ofNat 0xD || c == Char.ofNat 0xB || c == Char.ofNat 0xC

/-- Model of String.prototype.split on the whitespace-run regex: splits on
maximal runs of whitespace, producing a leading (resp. trailing) empty piece
when the string starts (resp. ends) with whitespace, and [""] on the empty
string, exactly as JavaScript does. -/
def splitWS : Str → List Str
  | [] => [[]]
  | c :: cs =>
    if wsChar c then
      match cs with
      | [] => [[], []]
      | d :: _ => if wsChar d then splitWS cs else [] :: splitWS cs
    else
      match splitWS cs with
      | [] => [[c]]
      | w :: ws => (c :: w) :: ws

/-- The per-word middle-alef removal of normalizeArabic: words of length at
most 2 are untouched; otherwise keep the first and last characters and drop
every alef in between. -/
def dropInnerAlef (word : Str) : Str :=
  if word.length ≤ 2 then word
  else
    word.take 1 ++ ((word.drop 1).dropLast.filter (fun c => !(c == alefChar)))
      ++ word.drop (word.length - 1)

/-- Trim (String.prototype.trim): drop whitespace from both ends. -/
def trimWS (s : Str) : Str :=
  ((s.dropWhile wsChar).reverse.dropWhile wsChar).reverse

/-- Collapse whitespace runs to single spaces (replace of the run regex by a
single space). -/
def collapseWS (s : Str) : Str := List.intercalate [' '] (splitWS s)

/-- Model of normalizeArabic (src/lib/quran-data.ts, first variant): strip
diacritics, apply the spoken-letter mappings, fold alef variants, fold alef
maqsura, fold taa marbuta, remove non-edge alefs per word, collapse and trim
whitespace. -/
def normalizeArabic (s : Str) : Str :=
  let n1 := stripDiacritics s
  let n2 := applyMappings n1
  let n3 := foldAlefVariants n2
  let n4 := foldAlefMaqsura n3
  let n5 := foldTaaMarbuta n4
  let n6 := List.intercalate [' '] ((splitWS n5).map dropInnerAlef)
  trimWS (collapseWS n6)

example : normalizeArabic "ألف لام ميم صاد".toList = "الم ص".toList := by decide
example : normalizeArabic "نوان".toList = "نون".toList := by decide
example : normalizeArabic "نون".toList = "ن".toList := by decide
example : normalizeArabic ['ب', 'م', Char.ofNat 0x670] = "بم".toList := by decide
example : normalizeArabic "بما".toList = "بما".toList := by decide
example : normalizeArabic "طأ هأ".toList = "طا ها".toList := by decide
example : normalizeArabic "الرحمان".toList = "الرحمن".toList := by decide

/-! ### Claim C9: spoken letter-name expansion order -/

/-- C9 (code evaluated at the failing input): the spec requires the
letter-name table to be applied longest-pattern-first, so that the spoken
sequence for the four-letter opening (alif lam mim sad) produces its whole
canonical form المص.  The code iterates the table in insertion order, where
the three-letter rule precedes and partially consumes the four-letter
sequence, leaving الم ص instead; the table entry for المص can never fire. -/
theorem normalizeArabic_letterSeq_insertion_order :
    normalizeArabic "ألف لام ميم صاد".toList = "الم ص".toList ∧
    "الم ص".toList ≠ "المص".toList := by
  constructor
  · decide
  · decide

/-! ### Claim C8: superscript alef -/

/-- C8 counterexample: normalization does not treat the superscript-alef
mark U+0670 as a plain alef; on the word بم followed by the mark it simply
deletes the mark, while the audible-alef spelling بما keeps its final alef,
so the two forms normalize differently. -/
theorem superAlef_not_converted_cex :
    normalizeArabic ['ب', 'م', superAlef] ≠
      normalizeArabic (['ب', 'م', superAlef].map
        (fun c => if c == superAlef then alefChar else c)) := by
  decide

lemma stripDiacritics_drop_superAlef (s : Str) :
    stripDiacritics (s.filter (fun c => !(c == superAlef))) = stripDiacritics s := by
  unfold stripDiacritics
  simp only [List.filter_filter]
  apply List.filter_congr
  intro x _
  cases hd : (!(x == superAlef)) <;> simp [hd]

/-- C8 amended: normalizeArabic deletes the superscript-alef mark U+0670
outright (it is stripped with the other diacritics, not converted to a plain
alef): normalizing a string is the same as normalizing the string with every
superscript alef removed. -/
theorem normalizeArabic_deletes_superAlef (s : Str) :
    normalizeArabic (s.filter (fun c => !(c == superAlef))) = normalizeArabic s := by
  simp only [normalizeArabic, stripDiacritics_drop_superAlef]

/-! ### Claim C3: idempotence counterexample -/

/-- C3 counterexample: normalizeArabic is not idempotent.  The word نوان
(whose interior alef is deleted) normalizes to نون, which is itself a
spoken-letter key, so a second normalization pass maps it to ن. -/
theorem normalizeArabic_not_idempotent_cex :
    normalizeArabic (normalizeArabic "نوان".toList) ≠
      normalizeArabic "نوان".toList := by
  decide

/-! ### Fuzzy token matcher -/

/-- Fuelled Levenshtein edit distance (classical recursion); the fuel is
always instantiated with the sum of the lengths, which is sufficient. -/
def levGo : Nat → Str → Str → Nat
  | _, [], ys => ys.length
  | _, x :: xs, [] => (x :: xs).length
  | 0, _ :: _, _ :: _ => 0
  | fuel + 1, x :: xs, y :: ys =>
    if x == y then levGo fuel xs ys
    else 1 + min (levGo fuel xs (y :: ys)) (min (levGo fuel (x :: xs) ys) (levGo fuel xs ys))

/-- Levenshtein edit distance between two token strings. -/
def levDist (a b : Str) : Nat := levGo (a.length + b.length) a b

/-- Modelled from the spec: fuzzyMatchArabic is imported from the quran-data
module by every incremental-tracker variant, but its definition is not among
the available source files; the spec's Fuzzy Token Matcher contract
describes it.  Exact equality always matches; if either token has length at
most 2 an exact match is required; otherwise the tokens match exactly when
their Levenshtein distance is at most 1. -/
def fuzzyMatchArabic (spoken expected : Str) : Bool :=
  if spoken == expected then true
  else if spoken.length ≤ 2 || expected.length ≤ 2 then false
  else decide (levDist spoken expected ≤ 1)

lemma levGo_self : ∀ fuel xs, xs.length ≤ fuel → levGo fuel xs xs = 0 := by
  intro fuel
  induction fuel with
  | zero =>
    intro xs h
    cases xs with
    | nil => rfl
    | cons x xs => simp at h
  | succ f ih =>
    intro xs h
    cases xs with
    | nil => rfl
    | cons x xs =>
      show levGo (f + 1) (x :: xs) (x :: xs) = 0
      have hx : (x == x) = true := by simp
      simp only [levGo, hx, if_true]
      exact ih xs (by simp at h; omega)

lemma levDist_self (a : Str) : levDist a a = 0 :=
  levGo_self _ a (by omega)

/-- C4: contract of the fuzzy token matcher (modelled from the spec).  Equal
tokens always match; when either token has length at most 2 the matcher
accepts exactly on equality; otherwise it accepts exactly when the
Levenshtein distance is at most 1. -/
theorem fuzzyMatchArabic_contract (a b : Str) :
    (a = b → fuzzyMatchArabic a b = true) ∧
    ((a.length ≤ 2 ∨ b.length ≤ 2) → (fuzzyMatchArabic a b = true ↔ a = b)) ∧
    (2 < a.length → 2 < b.length → (fuzzyMatchArabic a b = true ↔ levDist a b ≤ 1)) := by
  refine ⟨fun h => ?_, fun h => ?_, fun ha hb => ?_⟩
  · simp [fuzzyMatchArabic, h]
  · unfold fuzzyMatchArabic
    rcases eq_or_ne a b with he | he
    · simp [he]
    · have hbe : (a == b) = false := by simpa using he
      simp [hbe, he]
      omega
  · unfold fuzzyMatchArabic
    rcases eq_or_ne a b with he | he
    · subst he
      simp [levDist_self]
    · have hbe : (a == b) = false := by simpa using he
      simp [hbe]
      omega

/-- Witness for C4 in the spirit of the spec's test vectors: a pair of long
tokens at distance 1 matches, a short unequal pair does not. -/
theorem fuzzyMatchArabic_contract_witness :
    fuzzyMatchArabic "بتر".toList "بتار".toList = true ∧
    fuzzyMatchArabic "في".toList "فل".toList = false := by
  constructor
  · exact ((fuzzyMatchArabic_contract "بتر".toList "بتار".toList).2.2
      (by decide) (by decide)).mpr (by decide)
  · have h := (fuzzyMatchArabic_contract "في".toList "فل".toList).2.1
      (Or.inl (by decide))
    cases hb : fuzzyMatchArabic "في".toList "فل".toList
    · rfl
    · exact absurd (h.mp hb) (by decide)

/-! ### Batch aligner (compareRecitation) -/

/-- JavaScript Math.round: round half toward positive infinity. -/
def jsRound (q : ℚ) : ℤ := (q + 1 / 2).floor

/-- JavaScript Math.max(0, x) on integers. -/
def jsMaxZero (x : ℤ) : ℤ := if x < 0 then 0 else x

inductive MistakeType where
  | wrong
  | missing
  | extra
deriving DecidableEq

structure Mistake where
  type : MistakeType
  position : Nat
  expected : Option Str := none
  actual : Option Str := none
deriving DecidableEq

structure ComparisonResult where
  score : ℤ
  mistakes : List Mistake
deriving DecidableEq

/-- Model of String.prototype.split on a single space. -/
def splitOnSpace : Str → List Str
  | [] => [[]]
  | c :: cs =>
    if c == ' ' then [] :: splitOnSpace cs
    else
      match splitOnSpace cs with
      | [] => [[c]]
      | w :: ws => (c :: w) :: ws

/-- split(" ").filter(Boolean): the whitespace-free tokens of a string. -/
def splitTokens (s : Str) : List Str := (splitOnSpace s).filter (fun w => !w.isEmpty)

/-- Fuelled LCS length table: lcsDp R E i j is dp[i][j] of the source's
dynamic program over recognized-word prefix R[0..i-1] and expected-word
prefix E[0..j-1].  Fuel is instantiated with i + j, which is sufficient. -/
def lcsDpGo (R E : List Str) : Nat → Nat → Nat → Nat
  | _, 0, _ => 0
  | _, _ + 1, 0 => 0
  | 0, _ + 1, _ + 1 => 0
  | fuel + 1, i + 1, j + 1 =>
    if R.getD i [] == E.getD j [] then lcsDpGo R E fuel i j + 1
    else max (lcsDpGo R E fuel i (j + 1)) (lcsDpGo R E fuel (i + 1) j)

def lcsDp (R E : List Str) (i j : Nat) : Nat := lcsDpGo R E (i + j) i j

inductive AlignItem where
  | matched (expIdx recIdx : Nat)
  | missing (expIdx : Nat)
  | extra (recIdx : Nat)
deriving DecidableEq

/-- The expIdx field of an alignment item (undefined on extra items). -/
def AlignItem.expIdxOf : AlignItem → Option Nat
  | .matched e _ => some e
  | .missing e => some e
  | .extra _ => none

/-- Fuelled backtracking over the LCS table, producing the alignment in
forward order (the source builds it with unshift while walking from (m, n)
to (0, 0); appending at the tail of the recursive result is the same list).
Fuel is instantiated with i + j, which is sufficient. -/
def backtrackGo (R E : List Str) : Nat → Nat → Nat → List AlignItem
  | 0, _, _ => []
  | fuel + 1, i, j =>
    if i = 0 ∧ j = 0 then []
    else if 0 < i ∧ 0 < j ∧ R.getD (i - 1) [] = E.getD (j - 1) [] then
      backtrackGo R E fuel (i - 1) (j - 1) ++ [AlignItem.matched (j - 1) (i - 1)]
    else if 0 < j ∧ (i = 0 ∨ lcsDp R E (i - 1) j ≤ lcsDp R E i (j - 1)) then
      backtrackGo R E fuel i (j - 1) ++ [AlignItem.missing (j - 1)]
    else
      backtrackGo R E fuel (i - 1) j ++ [AlignItem.extra (i - 1)]

def backtrack (R E : List Str) (i j : Nat) : List AlignItem := backtrackGo R E (i + j) i j

/-- findNearestExpectedPosition: search backward then forward from the
current alignment index for the nearest item carrying an expected index
(offset loop bounded by the alignment length, returning 0 if none found). -/
def findNearestGo (al : List AlignItem) (ci : Nat) : Nat → Nat → Nat
  | 0, _ => 0
  | fuel + 1, off =>
    if off < al.length then
      if off ≤ ci ∧ ((al.getD (ci - off) (.extra 0)).expIdxOf).isSome then
        ((al.getD (ci - off) (.extra 0)).expIdxOf).getD 0 + 1
      else if ci + off < al.length ∧ ((al.getD (ci + off) (.extra 0)).expIdxOf).isSome then
        ((al.getD (ci + off) (.extra 0)).expIdxOf).getD 0
      else findNearestGo al ci fuel (off + 1)
    else 0

def findNearestExpectedPosition (al : List AlignItem) (ci : Nat) : Nat :=
  findNearestGo al ci al.length 1

/-- The post-processing loop over the alignment: adjacent extra+missing (or
missing+extra) collapse into a wrong mistake; standalone missing and extra
become their own mistakes; matches produce nothing.  Fuel is instantiated
with al.length + 1, which is sufficient. -/
def buildMistakes (recWords expWords : List Str) (al : List AlignItem) : Nat → Nat → List Mistake
  | 0, _ => []
  | fuel + 1, ai =>
    if ai < al.length then
      match al.getD ai (.extra 0) with
      | .extra r =>
        match al.getD (ai + 1) (.extra 0), decide (ai + 1 < al.length) with
        | .missing e, true =>
          ⟨.wrong, e, some (expWords.getD e []), some (recWords.getD r [])⟩ ::
            buildMistakes recWords expWords al fuel (ai + 2)
        | _, _ =>
          ⟨.extra, findNearestExpectedPosition al ai, none, some (recWords.getD r [])⟩ ::
            buildMistakes recWords expWords al fuel (ai + 1)
      | .missing e =>
        match al.getD (ai + 1) (.extra 0), decide (ai + 1 < al.length) with
        | .extra r, true =>
          ⟨.wrong, e, some (expWords.getD e []), some (recWords.getD r [])⟩ ::
            buildMistakes recWords expWords al fuel (ai + 2)
        | _, _ =>
          ⟨.missing, e, some (expWords.getD e []), none⟩ ::
            buildMistakes recWords expWords al fuel (ai + 1)
      | .matched _ _ => buildMistakes recWords expWords al fuel (ai + 1)
    else []

/-- The token-level core of compareRecitation (everything after
normalization and splitting). -/
def compareWords (recWords expWords : List Str) : ComparisonResult :=
  if expWords.length = 0 then ⟨100, []⟩
  else if recWords.length = 0 then
    ⟨0, expWords.enum.map (fun p => ⟨.missing, p.1, some p.2, none⟩)⟩
  else
    let al := backtrack recWords expWords recWords.length expWords.length
    let mistakes := buildMistakes recWords expWords al (al.length + 1) 0
    let nonExtra := (mistakes.filter (fun mk => !(mk.type == MistakeType.extra))).length
    let correctWords : ℤ := (expWords.length : ℤ) - nonExtra
    ⟨jsMaxZero (jsRound ((correctWords : ℚ) / (expWords.length : ℚ) * 100)), mistakes⟩

/-- Model of compareRecitation (src comparison module): normalize both
sides, split into words, align by LCS and post-process. -/
def compareRecitation (recognized expected : Str) : ComparisonResult :=
  compareWords (splitTokens (normalizeArabic recognized))
    (splitTokens (normalizeArabic expected))

example :
    (compareRecitation "الحمد لله رب العالمين".toList "الحمد لله رب العالمين".toList).mistakes
      = [] := by decide
example :
    (compareRecitation "الحمد للا رب العالمين".toList "الحمد لله رب العالمين".toList).mistakes
      = [⟨.wrong, 1, some "لله".toList, some "للا".toList⟩] := by decide
example :
    (compareWords ["كتب".toList, "كتب".toList, "كتب".toList]
      ["كتب".toList, "قلم".toList, "كتب".toList]).mistakes.length = 2 := by decide

/-! ### Claim C5: batch aligner edge cases -/

/-- C5: with an empty expected token list compareRecitation returns score
100 and no mistakes whatever the recognized input; with an empty recognized
token list against a non-empty expected one it returns score 0 and one
missing mistake per expected word, in order — as a value, not an
exception (the model is a total function). -/
theorem compareRecitation_empty_cases :
    (∀ r e : Str, splitTokens (normalizeArabic e) = [] →
      compareRecitation r e = ⟨100, []⟩) ∧
    (∀ r e : Str, splitTokens (normalizeArabic r) = [] →
      splitTokens (normalizeArabic e) ≠ [] →
      compareRecitation r e =
        ⟨0, (splitTokens (normalizeArabic e)).enum.map
          (fun p => ⟨MistakeType.missing, p.1, some p.2, none⟩)⟩) := by
  constructor
  · intro r e he
    unfold compareRecitation compareWords
    rw [he]
    simp
  · intro r e hr he
    unfold compareRecitation compareWords
    rw [hr]
    have hlen : (splitTokens (normalizeArabic e)).length ≠ 0 := by
      simpa [List.length_eq_zero] using he
    simp [hlen]

/-- Witness for C5 at concrete inputs. -/
theorem compareRecitation_empty_cases_witness :
    compareRecitation "لم".toList "".toList = ⟨100, []⟩ ∧
    compareRecitation "".toList "لم".toList =
      ⟨0, [⟨MistakeType.missing, 0, some "لم".toList, none⟩]⟩ := by
  constructor
  · exact compareRecitation_empty_cases.1 _ _ (by decide)
  · have h := compareRecitation_empty_cases.2 "".toList "لم".toList (by decide) (by decide)
    rw [h]
    decide

/-! ### Claim C2: single substitution, counterexample -/

/-- C2 counterexample: substituting the middle token of كتب قلم كتب by كتب
(a token that already occurs elsewhere in the expected sequence) is a
one-token substitution, yet the aligner reports two mistakes (an extra and a
missing), not a single wrong mistake at the substituted position. -/
theorem compareWords_single_substitution_cex :
    ["كتب".toList, "كتب".toList, "كتب".toList] =
      (["كتب".toList, "قلم".toList, "كتب".toList]).set 1 "كتب".toList ∧
    "كتب".toList ≠ "قلم".toList ∧
    (compareWords ["كتب".toList, "كتب".toList, "كتب".toList]
        ["كتب".toList, "قلم".toList, "كتب".toList]).mistakes =
      [⟨.extra, 0, none, some "كتب".toList⟩,
       ⟨.missing, 1, some "قلم".toList, none⟩] := by
  refine ⟨by decide, by decide, by decide⟩

/-! ### Incremental tracker (processNewWords of the live-follow page) -/

/-- One reference verse as prepared by the page: verse number, normalized
words, original words. -/
structure NVerse where
  verse : Nat
  normalizedWords : List Str
  originalWords : List Str
deriving DecidableEq

/-- One judged outcome pushed to revealedWords. -/
structure WordStatus where
  verseNumber : Nat
  wordIndex : Nat
  word : Str
  isCorrect : Bool
deriving DecidableEq

/-- The mutable session state of the tracker.  The source keys revealedSet
by the template string verse + "-" + wordIndex; that encoding of a pair of
numbers is injective, so the set is modelled as a finite set of pairs. -/
structure TrackerState where
  vIdx : Nat
  wIdx : Nat
  revealedSet : Finset (Nat × Nat)
  revealedWords : List WordStatus
  consecutiveMiss : Nat
  errorCount : Nat
deriving DecidableEq

def initialTrackerState : TrackerState := ⟨0, 0, ∅, [], 0, 0⟩

def dfltNVerse : NVerse := ⟨0, [], []⟩

def posOf (w : WordStatus) : Nat × Nat := (w.verseNumber, w.wordIndex)

structure SeqResult where
  vIdx : Nat
  wIdx : Nat
  rset : Finset (Nat × Nat)
  reveals : List WordStatus
  errs : Nat

/-- The sequential consumption loop of processNewWords (also the match loop
of the resynchronization branch, which is textually identical in the
source): words are consumed one-for-one against expected words, skipping
already-revealed positions and advancing over exhausted verses.  Fuelled;
processNewWords passes fuel that bounds the number of loop iterations. -/
def seqLoop (verses : List NVerse) (spoken : List Str) :
    Nat → Nat → Nat → Nat → Finset (Nat × Nat) → List WordStatus → Nat → SeqResult
  | 0, vIdx, wIdx, _, rset, reveals, errs => ⟨vIdx, wIdx, rset, reveals, errs⟩
  | fuel + 1, vIdx, wIdx, spokenIdx, rset, reveals, errs =>
    if vIdx < verses.length ∧ spokenIdx < spoken.length then
      let nv := verses.getD vIdx dfltNVerse
      if nv.normalizedWords.length ≤ wIdx then
        seqLoop verses spoken fuel (vIdx + 1) 0 spokenIdx rset reveals errs
      else if (nv.verse, wIdx) ∈ rset then
        seqLoop verses spoken fuel vIdx (wIdx + 1) spokenIdx rset reveals errs
      else
        let ok := fuzzyMatchArabic (spoken.getD spokenIdx []) (nv.normalizedWords.getD wIdx [])
        seqLoop verses spoken fuel vIdx (wIdx + 1) (spokenIdx + 1)
          (insert (nv.verse, wIdx) rset)
          (reveals ++ [⟨nv.verse, wIdx, nv.originalWords.getD wIdx [], ok⟩])
          (errs + if ok then 0 else 1)
    else ⟨vIdx, wIdx, rset, reveals, errs⟩

/-- Fuel bound for the tracker loops: total word count plus verse count. -/
def seqFuel (verses : List NVerse) : Nat :=
  (verses.map (fun v => v.normalizedWords.length)).sum + verses.length + 1

/-- The bounded forward search of the resynchronization branch: scan up to
10 positions ahead (the for-loop counter advances on verse-boundary steps
too, since continue runs the update) for a word fuzzily matching the first
spoken word; returns (offset, verseIdx, wordIdx). -/
def windowSearchGo (verses : List NVerse) (firstWord : Str) :
    Nat → Nat → Nat → Nat → Option (Nat × Nat × Nat)
  | 0, _, _, _ => none
  | fuel + 1, i, searchV, searchW =>
    if i < 10 ∧ searchV < verses.length then
      let verse := verses.getD searchV dfltNVerse
      if verse.normalizedWords.length ≤ searchW then
        windowSearchGo verses firstWord fuel (i + 1) (searchV + 1) 0
      else if fuzzyMatchArabic firstWord (verse.normalizedWords.getD searchW []) then
        some (i, searchV, searchW)
      else windowSearchGo verses firstWord fuel (i + 1) searchV (searchW + 1)
    else none

def windowSearch (verses : List NVerse) (firstWord : Str) (sv sw : Nat) :
    Option (Nat × Nat × Nat) :=
  windowSearchGo verses firstWord 11 0 sv sw

structure SkipResult where
  skipV : Nat
  skipW : Nat
  rset : Finset (Nat × Nat)
  reveals : List WordStatus

/-- The skip loop of the resynchronization branch: replay foundPosition loop
steps from the cursor, revealing each not-yet-revealed skipped word as a
missing (isCorrect = false) outcome. -/
def skipLoop (verses : List NVerse) :
    Nat → Nat → Nat → Finset (Nat × Nat) → List WordStatus → SkipResult
  | 0, skipV, skipW, rset, reveals => ⟨skipV, skipW, rset, reveals⟩
  | count + 1, skipV, skipW, rset, reveals =>
    let verse := verses.getD skipV dfltNVerse
    if verse.normalizedWords.length ≤ skipW then
      skipLoop verses count (skipV + 1) 0 rset reveals
    else if (verse.verse, skipW) ∈ rset then
      skipLoop verses count skipV (skipW + 1) rset reveals
    else
      skipLoop verses count skipV (skipW + 1)
        (insert (verse.verse, skipW) rset)
        (reveals ++ [⟨verse.verse, skipW, verse.originalWords.getD skipW [], false⟩])

/-- The one-step cursor normalization at the top of processNewWords: if the
word index runs past the current verse, move to the start of the next. -/
def normCursor (verses : List NVerse) (v w : Nat) : Nat × Nat :=
  if (verses.getD v dfltNVerse).normalizedWords.length ≤ w then (v + 1, 0) else (v, w)

/-- The body of processNewWords once the cursor (vIdx, wIdx) has been
normalized and bounds-checked. -/
def processCore (verses : List NVerse) (s : TrackerState) (vIdx wIdx : Nat)
    (spokenWords : List Str) : TrackerState :=
  let currentVerse := verses.getD vIdx dfltNVerse
  let firstWord := spokenWords.getD 0 []
  if fuzzyMatchArabic firstWord (currentVerse.normalizedWords.getD wIdx []) then
    let r := seqLoop verses spokenWords (seqFuel verses) vIdx wIdx 0 s.revealedSet [] 0
    if r.reveals.length = 0 then s
    else ⟨r.vIdx, r.wIdx, r.rset, s.revealedWords ++ r.reveals, 0, s.errorCount + r.errs⟩
  else
    match windowSearch verses firstWord vIdx wIdx with
    | some (fp, fv, fw) =>
      let sk := skipLoop verses fp vIdx wIdx s.revealedSet []
      let mr := seqLoop verses spokenWords (seqFuel verses) fv fw 0 sk.rset [] 0
      let allReveals := sk.reveals ++ mr.reveals
      if allReveals.length = 0 then s
      else ⟨mr.vIdx, mr.wIdx, mr.rset, s.revealedWords ++ allReveals, 0,
            s.errorCount + sk.reveals.length +
              (mr.reveals.filter (fun w => !w.isCorrect)).length⟩
    | none =>
      let cm := s.consecutiveMiss + 1
      if 3 ≤ cm then
        if (currentVerse.verse, wIdx) ∈ s.revealedSet then
          { s with consecutiveMiss := 0 }
        else
          let rv : WordStatus :=
            ⟨currentVerse.verse, wIdx, currentVerse.originalWords.getD wIdx [], false⟩
          if currentVerse.normalizedWords.length ≤ wIdx + 1 then
            ⟨vIdx + 1, 0, insert (currentVerse.verse, wIdx) s.revealedSet,
             s.revealedWords ++ [rv], 0, s.errorCount + 1⟩
          else
            ⟨vIdx, wIdx + 1, insert (currentVerse.verse, wIdx) s.revealedSet,
             s.revealedWords ++ [rv], 0, s.errorCount + 1⟩
      else { s with consecutiveMiss := cm }

/-- Model of processNewWords (src incremental tracker, the variant with the
consecutive-miss escape hatch).  UI side effects (flash, sounds, timers,
debug strings) are omitted; all state the claims speak about is kept. -/
def processNewWords (verses : List NVerse) (s : TrackerState)
    (spokenWords : List Str) : TrackerState :=
  if verses.length = 0 ∨ spokenWords.length = 0 then s
  else if verses.length ≤ s.vIdx then s
  else
    let p := normCursor verses s.vIdx s.wIdx
    if verses.length ≤ p.1 then s
    else processCore verses s p.1 p.2 spokenWords

/-! ### Tracker invariants (claim C1) -/

/-- Lexicographic order on cursor pairs (verse index, word index). -/
def lexLe (p q : Nat × Nat) : Prop := p.1 < q.1 ∨ (p.1 = q.1 ∧ p.2 ≤ q.2)

lemma lexLe_refl (p : Nat × Nat) : lexLe p p := Or.inr ⟨rfl, le_refl _⟩

lemma lexLe_trans {p q r : Nat × Nat} (h1 : lexLe p q) (h2 : lexLe q r) : lexLe p r := by
  rcases h1 with h1 | ⟨h1, h1w⟩ <;> rcases h2 with h2 | ⟨h2, h2w⟩ <;>
    simp [lexLe] <;> omega

lemma lexLe_word (v w : Nat) : lexLe (v, w) (v, w + 1) := Or.inr ⟨rfl, Nat.le_succ w⟩

lemma lexLe_verse (v w : Nat) : lexLe (v, w) (v + 1, 0) := Or.inl (Nat.lt_succ_self v)

/-- Tracker state invariant: judged outcomes have pairwise distinct
positions, and every judged position is in the revealed set. -/
def trackerInv (s : TrackerState) : Prop :=
  (s.revealedWords.map posOf).Nodup ∧ ∀ w ∈ s.revealedWords, posOf w ∈ s.revealedSet

/-- One tracker step only grows the revealed set and never moves the cursor
backward (lexicographically). -/
def trackerStepLe (s t : TrackerState) : Prop :=
  s.revealedSet ⊆ t.revealedSet ∧ lexLe (s.vIdx, s.wIdx) (t.vIdx, t.wIdx)

lemma seqLoop_spec (verses : List NVerse) (spoken : List Str) :
    ∀ fuel vIdx wIdx si rset reveals errs,
      rset ⊆ (seqLoop verses spoken fuel vIdx wIdx si rset reveals errs).rset ∧
      lexLe (vIdx, wIdx)
        ((seqLoop verses spoken fuel vIdx wIdx si rset reveals errs).vIdx,
         (seqLoop verses spoken fuel vIdx wIdx si rset reveals errs).wIdx) ∧
      ∃ new,
        (seqLoop verses spoken fuel vIdx wIdx si rset reveals errs).reveals
          = reveals ++ new ∧
        (∀ w ∈ new,
          posOf w ∈ (seqLoop verses spoken fuel vIdx wIdx si rset reveals errs).rset ∧
          posOf w ∉ rset) ∧
        (new.map posOf).Nodup := by
  intro fuel
  induction fuel with
  | zero =>
    intro vIdx wIdx si rset reveals errs
    refine ⟨Finset.Subset.refl _, lexLe_refl _, [], by simp [seqLoop], by simp, by simp⟩
  | succ f ih =>
    intro vIdx wIdx si rset reveals errs
    show _ ∧ _ ∧ _
    simp only [seqLoop]
    by_cases h1 : vIdx < verses.length ∧ si < spoken.length
    · rw [if_pos h1]
      by_cases h2 : (verses.getD vIdx dfltNVerse).normalizedWords.length ≤ wIdx
      · rw [if_pos h2]
        obtain ⟨hsub, hlex, new, hrev, hmem, hnd⟩ := ih (vIdx + 1) 0 si rset reveals errs
        exact ⟨hsub, lexLe_trans (lexLe_verse vIdx wIdx) hlex, new, hrev, hmem, hnd⟩
      · rw [if_neg h2]
        by_cases h3 : ((verses.getD vIdx dfltNVerse).verse, wIdx) ∈ rset
        · rw [if_pos h3]
          obtain ⟨hsub, hlex, new, hrev, hmem, hnd⟩ := ih vIdx (wIdx + 1) si rset reveals errs
          exact ⟨hsub, lexLe_trans (lexLe_word vIdx wIdx) hlex, new, hrev, hmem, hnd⟩
        · rw [if_neg h3]
          obtain ⟨hsub, hlex, new, hrev, hmem, hnd⟩ :=
            ih vIdx (wIdx + 1) (si + 1)
              (insert ((verses.getD vIdx dfltNVerse).verse, wIdx) rset)
              (reveals ++ [⟨(verses.getD vIdx dfltNVerse).verse, wIdx,
                (verses.getD vIdx dfltNVerse).originalWords.getD wIdx [],
                fuzzyMatchArabic (spoken.getD si [])
                  ((verses.getD vIdx dfltNVerse).normalizedWords.getD wIdx [])⟩])
              (errs + if fuzzyMatchArabic (spoken.getD si [])
                  ((verses.getD vIdx dfltNVerse).normalizedWords.getD wIdx []) then 0 else 1)
          refine ⟨(Finset.subset_insert _ _).trans hsub,
            lexLe_trans (lexLe_word vIdx wIdx) hlex,
            ⟨(verses.getD vIdx dfltNVerse).verse, wIdx,
              (verses.getD vIdx dfltNVerse).originalWords.getD wIdx [],
              fuzzyMatchArabic (spoken.getD si [])
                ((verses.getD vIdx dfltNVerse).normalizedWords.getD wIdx [])⟩ :: new,
            by rw [hrev, List.append_assoc]; rfl, ?_, ?_⟩
          · intro w hw
            rcases List.mem_cons.mp hw with hweq | hwmem
            · subst hweq
              exact ⟨hsub (Finset.mem_insert_self _ _), h3⟩
            · exact ⟨(hmem w hwmem).1,
                fun hm => (hmem w hwmem).2 (Finset.mem_insert_of_mem hm)⟩
          · rw [List.map_cons, List.nodup_cons]
            refine ⟨fun hc => ?_, hnd⟩
            obtain ⟨w, hw, hpw⟩ := List.mem_map.mp hc
            exact (hmem w hw).2 (hpw ▸ Finset.mem_insert_self _ _)
    · rw [if_neg h1]
      exact ⟨Finset.Subset.refl _, lexLe_refl _, [], by simp, by simp, by simp⟩

lemma skipLoop_spec (verses : List NVerse) :
    ∀ count skipV skipW rset reveals,
      rset ⊆ (skipLoop verses count skipV skipW rset reveals).rset ∧
      ∃ new,
        (skipLoop verses count skipV skipW rset reveals).reveals = reveals ++ new ∧
        (∀ w ∈ new,
          posOf w ∈ (skipLoop verses count skipV skipW rset reveals).rset ∧
          posOf w ∉ rset) ∧
        (new.map posOf).Nodup := by
  intro count
  induction count with
  | zero =>
    intro skipV skipW rset reveals
    exact ⟨Finset.Subset.refl _, [], by simp [skipLoop], by simp, by simp⟩
  | succ c ih =>
    intro skipV skipW rset reveals
    show _ ∧ _
    simp only [skipLoop]
    by_cases h2 : (verses.getD skipV dfltNVerse).normalizedWords.length ≤ skipW
    · rw [if_pos h2]
      exact ih (skipV + 1) 0 rset reveals
    · rw [if_neg h2]
      by_cases h3 : ((verses.getD skipV dfltNVerse).verse, skipW) ∈ rset
      · rw [if_pos h3]
        exact ih skipV (skipW + 1) rset reveals
      · rw [if_neg h3]
        obtain ⟨hsub, new, hrev, hmem, hnd⟩ :=
          ih skipV (skipW + 1)
            (insert ((verses.getD skipV dfltNVerse).verse, skipW) rset)
            (reveals ++ [⟨(verses.getD skipV dfltNVerse).verse, skipW,
              (verses.getD skipV dfltNVerse).originalWords.getD skipW [], false⟩])
        refine ⟨(Finset.subset_insert _ _).trans hsub,
          ⟨(verses.getD skipV dfltNVerse).verse, skipW,
            (verses.getD skipV dfltNVerse).originalWords.getD skipW [], false⟩ :: new,
          by rw [hrev, List.append_assoc]; rfl, ?_, ?_⟩
        · intro w hw
          rcases List.mem_cons.mp hw with hweq | hwmem
          · subst hweq
            exact ⟨hsub (Finset.mem_insert_self _ _), h3⟩
          · exact ⟨(hmem w hwmem).1,
              fun hm => (hmem w hwmem).2 (Finset.mem_insert_of_mem hm)⟩
        · rw [List.map_cons, List.nodup_cons]
          refine ⟨fun hc => ?_, hnd⟩
          obtain ⟨w, hw, hpw⟩ := List.mem_map.mp hc
          exact (hmem w hw).2 (hpw ▸ Finset.mem_insert_self _ _)

lemma windowSearchGo_lexLe (verses : List NVerse) (firstWord : Str) :
    ∀ fuel i sv sw fp fv fw,
      windowSearchGo verses firstWord fuel i sv sw = some (fp, fv, fw) →
      lexLe (sv, sw) (fv, fw) := by
  intro fuel
  induction fuel with
  | zero => intro i sv sw fp fv fw h; simp [windowSearchGo] at h
  | succ f ih =>
    intro i sv sw fp fv fw h
    simp only [windowSearchGo] at h
    by_cases h1 : i < 10 ∧ sv < verses.length
    · rw [if_pos h1] at h
      by_cases h2 : (verses.getD sv dfltNVerse).normalizedWords.length ≤ sw
      · rw [if_pos h2] at h
        exact lexLe_trans (lexLe_verse sv sw) (ih _ _ _ _ _ _ h)
      · rw [if_neg h2] at h
        by_cases h3 : fuzzyMatchArabic firstWord
            ((verses.getD sv dfltNVerse).normalizedWords.getD sw []) = true
        · rw [if_pos h3] at h
          obtain ⟨rfl, rfl⟩ : fv = sv ∧ fw = sw := by
            cases h
            exact ⟨rfl, rfl⟩
          exact lexLe_refl _
        · rw [if_neg h3] at h
          exact lexLe_trans (lexLe_word sv sw) (ih _ _ _ _ _ _ h)
    · rw [if_neg h1] at h
      exact absurd h (by simp)

lemma nodup_append_tracker {base new : List WordStatus} (rset rset2 : Finset (Nat × Nat))
    (hbase : (base.map posOf).Nodup) (hbmem : ∀ w ∈ base, posOf w ∈ rset)
    (hnd : (new.map posOf).Nodup)
    (hmem : ∀ w ∈ new, posOf w ∈ rset2 ∧ posOf w ∉ rset) :
    ((base ++ new).map posOf).Nodup := by
  rw [List.map_append, List.nodup_append]
  refine ⟨hbase, hnd, fun a ha ha2 => ?_⟩
  obtain ⟨w, hw, hpw⟩ := List.mem_map.mp ha
  obtain ⟨w2, hw2, hpw2⟩ := List.mem_map.mp ha2
  exact (hmem w2 hw2).2 (hpw2 ▸ hpw ▸ hbmem w hw)

lemma processCore_spec (verses : List NVerse) (s : TrackerState) (vIdx wIdx : Nat)
    (spoken : List Str) (hInv : trackerInv s)
    (hle : lexLe (s.vIdx, s.wIdx) (vIdx, wIdx)) :
    trackerInv (processCore verses s vIdx wIdx spoken) ∧
    trackerStepLe s (processCore verses s vIdx wIdx spoken) := by
  obtain ⟨hIn, hIm⟩ := hInv
  unfold processCore
  dsimp only
  by_cases hseq : fuzzyMatchArabic (spoken.getD 0 [])
      ((verses.getD vIdx dfltNVerse).normalizedWords.getD wIdx []) = true
  · rw [if_pos hseq]
    obtain ⟨hsub, hlex, new, hrev, hmem, hnd⟩ :=
      seqLoop_spec verses spoken (seqFuel verses) vIdx wIdx 0 s.revealedSet [] 0
    rw [List.nil_append] at hrev
    by_cases hz : (seqLoop verses spoken (seqFuel verses) vIdx wIdx 0
        s.revealedSet [] 0).reveals.length = 0
    · rw [if_pos hz]
      exact ⟨⟨hIn, hIm⟩, Finset.Subset.refl _, lexLe_refl _⟩
    · rw [if_neg hz]
      refine ⟨⟨?_, ?_⟩, ?_, ?_⟩
      · rw [hrev]
        exact nodup_append_tracker s.revealedSet _ hIn hIm hnd hmem
      · intro w hw
        rw [hrev] at hw
        rcases List.mem_append.mp hw with hw | hw
        · exact hsub (hIm w hw)
        · exact (hmem w hw).1
      · exact hsub
      · exact lexLe_trans hle hlex
  · rw [if_neg hseq]
    cases hws : windowSearch verses (spoken.getD 0 []) vIdx wIdx with
    | some found =>
      obtain ⟨fp, fv, fw⟩ := found
      dsimp only
      obtain ⟨hsub1, new1, hrev1, hmem1, hnd1⟩ :=
        skipLoop_spec verses fp vIdx wIdx s.revealedSet []
      rw [List.nil_append] at hrev1
      obtain ⟨hsub2, hlex2, new2, hrev2, hmem2, hnd2⟩ :=
        seqLoop_spec verses spoken (seqFuel verses) fv fw 0
          (skipLoop verses fp vIdx wIdx s.revealedSet []).rset [] 0
      rw [List.nil_append] at hrev2
      have hlefw : lexLe (vIdx, wIdx) (fv, fw) := by
        rw [windowSearch] at hws
        exact windowSearchGo_lexLe verses (spoken.getD 0 []) 11 0 vIdx wIdx fp fv fw hws
      by_cases hz : ((skipLoop verses fp vIdx wIdx s.revealedSet []).reveals ++
          (seqLoop verses spoken (seqFuel verses) fv fw 0
            (skipLoop verses fp vIdx wIdx s.revealedSet []).rset [] 0).reveals).length = 0
      · rw [if_pos hz]
        exact ⟨⟨hIn, hIm⟩, Finset.Subset.refl _, lexLe_refl _⟩
      · rw [if_neg hz]
        rw [hrev1, hrev2]
        have hsub12 : s.revealedSet ⊆ (seqLoop verses spoken (seqFuel verses) fv fw 0
            (skipLoop verses fp vIdx wIdx s.revealedSet []).rset [] 0).rset :=
          hsub1.trans hsub2
        have hmemAll : ∀ w ∈ new1 ++ new2,
            posOf w ∈ (seqLoop verses spoken (seqFuel verses) fv fw 0
              (skipLoop verses fp vIdx wIdx s.revealedSet []).rset [] 0).rset ∧
            posOf w ∉ s.revealedSet := by
          intro w hw
          rcases List.mem_append.mp hw with hw | hw
          · exact ⟨hsub2 ((hmem1 w hw).1), (hmem1 w hw).2⟩
          · exact ⟨(hmem2 w hw).1, fun hm => (hmem2 w hw).2 (hsub1 hm)⟩
        refine ⟨⟨?_, ?_⟩, hsub12, lexLe_trans hle (lexLe_trans hlefw hlex2)⟩
        · apply nodup_append_tracker s.revealedSet _ hIn hIm ?_ hmemAll
          rw [List.map_append, List.nodup_append]
          refine ⟨hnd1, hnd2, fun a ha ha2 => ?_⟩
          obtain ⟨w, hw, hpw⟩ := List.mem_map.mp ha
          obtain ⟨w2, hw2, hpw2⟩ := List.mem_map.mp ha2
          exact (hmem2 w2 hw2).2 (hpw2 ▸ hpw ▸ (hmem1 w hw).1)
        · intro w hw
          rcases List.mem_append.mp hw with hw | hw
          · exact hsub12 (hIm w hw)
          · exact (hmemAll w hw).1
    | none =>
      dsimp only
      by_cases hcm : 3 ≤ s.consecutiveMiss + 1
      · rw [if_pos hcm]
        by_cases hrv : ((verses.getD vIdx dfltNVerse).verse, wIdx) ∈ s.revealedSet
        · rw [if_pos hrv]
          exact ⟨⟨hIn, hIm⟩, Finset.Subset.refl _, lexLe_refl _⟩
        · rw [if_neg hrv]
          have hnd1 : (List.map posOf
              [(⟨(verses.getD vIdx dfltNVerse).verse, wIdx,
                (verses.getD vIdx dfltNVerse).originalWords.getD wIdx [],
                false⟩ : WordStatus)]).Nodup := by simp
          have hmem1 : ∀ w ∈ [(⟨(verses.getD vIdx dfltNVerse).verse, wIdx,
                (verses.getD vIdx dfltNVerse).originalWords.getD wIdx [],
                false⟩ : WordStatus)],
              posOf w ∈ insert ((verses.getD vIdx dfltNVerse).verse, wIdx) s.revealedSet ∧
              posOf w ∉ s.revealedSet := by
            intro w hw
            rcases List.mem_cons.mp hw with hweq | hwmem
            · subst hweq
              exact ⟨Finset.mem_insert_self _ _, hrv⟩
            · simp at hwmem
          have hnodup := nodup_append_tracker s.revealedSet
            (insert ((verses.getD vIdx dfltNVerse).verse, wIdx) s.revealedSet)
            hIn hIm hnd1 hmem1
          have hmemall : ∀ w ∈ s.revealedWords ++ [(⟨(verses.getD vIdx dfltNVerse).verse, wIdx,
                (verses.getD vIdx dfltNVerse).originalWords.getD wIdx [],
                false⟩ : WordStatus)],
              posOf w ∈ insert ((verses.getD vIdx dfltNVerse).verse, wIdx) s.revealedSet := by
            intro w hw
            rcases List.mem_append.mp hw with hw | hw
            · exact Finset.mem_insert_of_mem (hIm w hw)
            · exact (hmem1 w hw).1
          by_cases hadv : (verses.getD vIdx dfltNVerse).normalizedWords.length ≤ wIdx + 1
          · rw [if_pos hadv]
            exact ⟨⟨hnodup, hmemall⟩, Finset.subset_insert _ _,
              lexLe_trans hle (lexLe_verse vIdx wIdx)⟩
          · rw [if_neg hadv]
            exact ⟨⟨hnodup, hmemall⟩, Finset.subset_insert _ _,
              lexLe_trans hle (lexLe_word vIdx wIdx)⟩
      · rw [if_neg hcm]
        exact ⟨⟨hIn, hIm⟩, Finset.Subset.refl _, lexLe_refl _⟩

lemma normCursor_lexLe (verses : List NVerse) (v w : Nat) :
    lexLe (v, w) (normCursor verses v w) := by
  unfold normCursor
  split_ifs
  · exact lexLe_verse v w
  · exact lexLe_refl _

lemma processNewWords_spec (verses : List NVerse) (s : TrackerState)
    (spoken : List Str) (hInv : trackerInv s) :
    trackerInv (processNewWords verses s spoken) ∧
    trackerStepLe s (processNewWords verses s spoken) := by
  unfold processNewWords
  dsimp only
  split_ifs with h1 h2 h3
  · exact ⟨hInv, Finset.Subset.refl _, lexLe_refl _⟩
  · exact ⟨hInv, Finset.Subset.refl _, lexLe_refl _⟩
  · exact ⟨hInv, Finset.Subset.refl _, lexLe_refl _⟩
  · have hle : lexLe (s.vIdx, s.wIdx)
        ((normCursor verses s.vIdx s.wIdx).1, (normCursor verses s.vIdx s.wIdx).2) := by
      simpa using normCursor_lexLe verses s.vIdx s.wIdx
    exact processCore_spec verses s _ _ spoken hInv hle

lemma head_of_scanl {α β : Type} (f : α → β → α) (b : α) (l : List β) :
    (List.scanl f b l).head? = some b := by
  cases l <;> rfl

lemma chain'_scanl_tracker (verses : List NVerse) :
    ∀ batches (s : TrackerState), trackerInv s →
      List.Chain' (fun a b => a.revealedSet ⊆ b.revealedSet ∧
          lexLe (a.vIdx, a.wIdx) (b.vIdx, b.wIdx))
        (List.scanl (processNewWords verses) s batches) ∧
      trackerInv (List.foldl (processNewWords verses) s batches) := by
  intro batches
  induction batches with
  | nil =>
    intro s hs
    exact ⟨by simp [List.scanl], by simpa [List.foldl] using hs⟩
  | cons b bs ih =>
    intro s hs
    obtain ⟨hinvn, hsub, hlex⟩ := processNewWords_spec verses s b hs
    obtain ⟨hchain, hinvf⟩ := ih (processNewWords verses s b) hinvn
    refine ⟨?_, by simpa [List.foldl] using hinvf⟩
    show List.Chain' _ (s :: List.scanl (processNewWords verses) (processNewWords verses s b) bs)
    refine List.chain'_cons'.mpr ⟨?_, hchain⟩
    intro y hy
    rw [Option.mem_def, head_of_scanl] at hy
    injection hy with hy
    subst hy
    exact ⟨hsub, hlex⟩

/-- C1: for every fixed verse list and every sequence of word batches fed to
the incremental tracker within one session, along the whole trace starting
from the initial state the revealed set only gains elements and the cursor
pair (verse index, word index) never decreases lexicographically, and in the
final judged-outcome list every (verse, wordIndex) position occurs at most
once (so no position is judged twice across the session). -/
theorem tracker_session_invariants (verses : List NVerse) (batches : List (List Str)) :
    List.Chain' (fun a b => a.revealedSet ⊆ b.revealedSet ∧
        lexLe (a.vIdx, a.wIdx) (b.vIdx, b.wIdx))
      (List.scanl (processNewWords verses) initialTrackerState batches) ∧
    (((List.foldl (processNewWords verses) initialTrackerState batches).revealedWords).map
      posOf).Nodup := by
  obtain ⟨hc, hi⟩ := chain'_scanl_tracker verses batches initialTrackerState
    ⟨by simp [initialTrackerState], by simp [initialTrackerState]⟩
  exact ⟨hc, hi.1⟩

/-! ### Claim C6: unmatched batch and consecutive-miss escape -/

/-- C6: when a spoken batch matches neither the current expected word nor
any word in the forward resynchronization window, processNewWords leaves the
cursor, the revealed set and the judged outcomes unchanged and only
increments the consecutive-miss counter; and when that counter reaches 3, it
reveals exactly the single current expected word as wrong (isCorrect =
false), advances the cursor by exactly one word (wrapping to the next verse
when the current one is exhausted), resets the counter to zero and counts
one error. -/
theorem processNewWords_unmatched_branch
    (verses : List NVerse) (s : TrackerState) (spokenWords : List Str)
    (hv : ¬verses.length = 0) (hsp : ¬spokenWords.length = 0)
    (hvi : ¬verses.length ≤ s.vIdx)
    (hcur : ¬verses.length ≤ (normCursor verses s.vIdx s.wIdx).1)
    (hfz : fuzzyMatchArabic (spokenWords.getD 0 [])
        ((verses.getD (normCursor verses s.vIdx s.wIdx).1 dfltNVerse).normalizedWords.getD
          (normCursor verses s.vIdx s.wIdx).2 []) = false)
    (hsearch : windowSearch verses (spokenWords.getD 0 [])
        (normCursor verses s.vIdx s.wIdx).1 (normCursor verses s.vIdx s.wIdx).2 = none) :
    (s.consecutiveMiss + 1 < 3 →
      processNewWords verses s spokenWords =
        { s with consecutiveMiss := s.consecutiveMiss + 1 }) ∧
    (3 ≤ s.consecutiveMiss + 1 →
      ((verses.getD (normCursor verses s.vIdx s.wIdx).1 dfltNVerse).verse,
        (normCursor verses s.vIdx s.wIdx).2) ∉ s.revealedSet →
      processNewWords verses s spokenWords =
        (let p := normCursor verses s.vIdx s.wIdx
         let cv := verses.getD p.1 dfltNVerse
         let rv : WordStatus := ⟨cv.verse, p.2, cv.originalWords.getD p.2 [], false⟩
         if cv.normalizedWords.length ≤ p.2 + 1 then
           (⟨p.1 + 1, 0, insert (cv.verse, p.2) s.revealedSet,
             s.revealedWords ++ [rv], 0, s.errorCount + 1⟩ : TrackerState)
         else
           ⟨p.1, p.2 + 1, insert (cv.verse, p.2) s.revealedSet,
            s.revealedWords ++ [rv], 0, s.errorCount + 1⟩)) := by
  have hcore : processNewWords verses s spokenWords =
      processCore verses s (normCursor verses s.vIdx s.wIdx).1
        (normCursor verses s.vIdx s.wIdx).2 spokenWords := by
    unfold processNewWords
    dsimp only
    rw [if_neg (not_or.mpr ⟨hv, hsp⟩), if_neg hvi, if_neg hcur]
  rw [hcore]
  unfold processCore
  dsimp only
  rw [if_neg (by rw [hfz]; simp), hsearch]
  dsimp only
  constructor
  · intro hlt
    rw [if_neg (by omega)]
  · intro hge hnr
    rw [if_pos hge, if_neg hnr]

/-- Witness for C6 on a concrete two-word verse where the spoken batch
matches nothing: below the threshold only the miss counter moves; at the
threshold the current word is revealed wrong and the cursor advances one. -/
theorem processNewWords_unmatched_branch_witness :
    processNewWords [⟨1, ["بت".toList, "ثج".toList], ["بت".toList, "ثج".toList]⟩]
        ⟨0, 0, ∅, [], 0, 0⟩ ["شش".toList] = ⟨0, 0, ∅, [], 1, 0⟩ ∧
    processNewWords [⟨1, ["بت".toList, "ثج".toList], ["بت".toList, "ثج".toList]⟩]
        ⟨0, 0, ∅, [], 2, 0⟩ ["شش".toList] =
      ⟨0, 1, {(1, 0)}, [⟨1, 0, "بت".toList, false⟩], 0, 1⟩ := by
  constructor
  · have h := (processNewWords_unmatched_branch
      [⟨1, ["بت".toList, "ثج".toList], ["بت".toList, "ثج".toList]⟩]
      ⟨0, 0, ∅, [], 0, 0⟩ ["شش".toList]
      (by decide) (by decide) (by decide) (by decide) (by decide) (by decide)).1
      (by decide)
    rw [h]
  · have h := (processNewWords_unmatched_branch
      [⟨1, ["بت".toList, "ثج".toList], ["بت".toList, "ثج".toList]⟩]
      ⟨0, 0, ∅, [], 2, 0⟩ ["شش".toList]
      (by decide) (by decide) (by decide) (by decide) (by decide) (by decide)).2
      (by decide) (by decide)
    rw [h]
    decide

/-! ### Claim C2: LCS theory for the single-substitution theorem -/

lemma lcsDpGo_fuel_eq (R E : List Str) :
    ∀ f1 f2 i j, i + j ≤ f1 → i + j ≤ f2 →
      lcsDpGo R E f1 i j = lcsDpGo R E f2 i j := by
  intro f1
  induction f1 with
  | zero =>
    intro f2 i j h1 h2
    have hi : i = 0 := by omega
    subst hi
    cases f2 <;> rfl
  | succ f ih =>
    intro f2 i j h1 h2
    cases i with
    | zero => cases f2 <;> rfl
    | succ i =>
      cases j with
      | zero => cases f2 <;> rfl
      | succ j =>
        obtain ⟨g, rfl⟩ : ∃ g, f2 = g + 1 := ⟨f2 - 1, by omega⟩
        show (if R.getD i [] == E.getD j [] then lcsDpGo R E f i j + 1
              else max (lcsDpGo R E f i (j + 1)) (lcsDpGo R E f (i + 1) j)) =
             (if R.getD i [] == E.getD j [] then lcsDpGo R E g i j + 1
              else max (lcsDpGo R E g i (j + 1)) (lcsDpGo R E g (i + 1) j))
        rw [ih g i j (by omega) (by omega), ih g i (j + 1) (by omega) (by omega),
          ih g (i + 1) j (by omega) (by omega)]

lemma lcsDp_zero_left (R E : List Str) (j : Nat) : lcsDp R E 0 j = 0 := by
  unfold lcsDp
  rw [Nat.zero_add]
  cases j <;> rfl

lemma lcsDp_zero_right (R E : List Str) (i : Nat) : lcsDp R E i 0 = 0 := by
  cases i <;> rfl

lemma lcsDp_succ (R E : List Str) (i j : Nat) :
    lcsDp R E (i + 1) (j + 1) =
      if R.getD i [] = E.getD j [] then lcsDp R E i j + 1
      else max (lcsDp R E i (j + 1)) (lcsDp R E (i + 1) j) := by
  show (if R.getD i [] == E.getD j [] then lcsDpGo R E (i + 1 + (j + 1) - 1) i j + 1
        else max (lcsDpGo R E (i + 1 + (j + 1) - 1) i (j + 1))
          (lcsDpGo R E (i + 1 + (j + 1) - 1) (i + 1) j)) = _
  rw [lcsDpGo_fuel_eq R E (i + 1 + (j + 1) - 1) (i + j) i j (by omega) (by omega),
    lcsDpGo_fuel_eq R E (i + 1 + (j + 1) - 1) (i + (j + 1)) i (j + 1) (by omega) (by omega),
    lcsDpGo_fuel_eq R E (i + 1 + (j + 1) - 1) (i + 1 + j) (i + 1) j (by omega) (by omega)]
  rcases eq_or_ne (R.getD i []) (E.getD j []) with he | he
  · simp [lcsDp, he]
  · have : (R.getD i [] == E.getD j []) = false := by simpa using he
    simp [lcsDp, this, he]

lemma lcsDp_le_left (R E : List Str) :
    ∀ n i j, i + j ≤ n → lcsDp R E i j ≤ i := by
  intro n
  induction n with
  | zero =>
    intro i j h
    have hi : i = 0 := by omega
    subst hi
    simp [lcsDp_zero_left]
  | succ m ih =>
    intro i j h
    cases i with
    | zero => simp [lcsDp_zero_left]
    | succ i =>
      cases j with
      | zero => simp [lcsDp_zero_right]
      | succ j =>
        rw [lcsDp_succ]
        split_ifs
        · have := ih i j (by omega)
          omega
        · have h1 := ih i (j + 1) (by omega)
          have h2 := ih (i + 1) j (by omega)
          omega

lemma lcsDp_le_right (R E : List Str) :
    ∀ n i j, i + j ≤ n → lcsDp R E i j ≤ j := by
  intro n
  induction n with
  | zero =>
    intro i j h
    have hi : i = 0 := by omega
    subst hi
    simp [lcsDp_zero_left]
  | succ m ih =>
    intro i j h
    cases i with
    | zero => simp [lcsDp_zero_left]
    | succ i =>
      cases j with
      | zero => simp [lcsDp_zero_right]
      | succ j =>
        rw [lcsDp_succ]
        split_ifs
        · have := ih i j (by omega)
          omega
        · have h1 := ih i (j + 1) (by omega)
          have h2 := ih (i + 1) j (by omega)
          omega

lemma lcsDp_step_bounds (R E : List Str) :
    ∀ n i j, i + j ≤ n →
      (lcsDp R E i j ≤ lcsDp R E (i + 1) j ∧
       lcsDp R E i j ≤ lcsDp R E i (j + 1) ∧
       lcsDp R E (i + 1) j ≤ lcsDp R E i j + 1 ∧
       lcsDp R E i (j + 1) ≤ lcsDp R E i j + 1) := by
  intro n
  induction n with
  | zero =>
    intro i j h
    have hi : i = 0 := by omega
    have hj : j = 0 := by omega
    subst hi hj
    refine ⟨by simp [lcsDp_zero_left, lcsDp_zero_right], ?_, ?_, ?_⟩
    · simp [lcsDp_zero_left]
    · have := lcsDp_le_right R E 1 1 0 (by omega)
      simp [lcsDp_zero_left, lcsDp_zero_right] at this ⊢
    · have := lcsDp_le_left R E 1 0 1 (by omega)
      simp [lcsDp_zero_left, lcsDp_zero_right] at this ⊢
  | succ m ih =>
    intro i j h
    cases i with
    | zero =>
      cases j with
      | zero =>
        exact ⟨by simp [lcsDp_zero_left, lcsDp_zero_right],
          by simp [lcsDp_zero_left],
          by have := lcsDp_le_right R E 1 1 0 (by omega); simp [lcsDp_zero_right] at this ⊢,
          by have := lcsDp_le_left R E 1 0 1 (by omega); simp [lcsDp_zero_left] at this ⊢⟩
      | succ j =>
        refine ⟨by simp [lcsDp_zero_left], by simp [lcsDp_zero_left], ?_, ?_⟩
        · have := lcsDp_le_left R E (j + 2) 1 (j + 1) (by omega)
          simp [lcsDp_zero_left]
          omega
        · simp [lcsDp_zero_left]
    | succ i =>
      cases j with
      | zero =>
        refine ⟨by simp [lcsDp_zero_right], by simp [lcsDp_zero_right], ?_, ?_⟩
        · simp [lcsDp_zero_right]
        · have := lcsDp_le_right R E (i + 2) (i + 1) 1 (by omega)
          simp [lcsDp_zero_right]
          omega
      | succ j =>
        -- the inner positions are (i, j); all smaller-sum instances are available
        have bij := ih i j (by omega)
        have bi1j := ih (i + 1) j (by omega)
        have bij1 := ih i (j + 1) (by omega)
        refine ⟨?_, ?_, ?_, ?_⟩
        · -- lcsDp (i+1) (j+1) ≤ lcsDp (i+2) (j+1)
          rw [lcsDp_succ R E i j, lcsDp_succ R E (i + 1) j]
          split_ifs with h1 h2 h2
          · omega
          · -- P i j true, P (i+1) j false: dp i j + 1 = dp (i+1)(j+1) ≤ max
            have : lcsDp R E (i + 1) (j + 1) = lcsDp R E i j + 1 := by
              rw [lcsDp_succ, if_pos h1]
            have hle : lcsDp R E i j + 1 ≤ lcsDp R E (i + 1) (j + 1) := this.ge
            exact le_trans hle (le_max_left _ _)
          · -- P i j false, P (i+1) j true
            have h3 : lcsDp R E i (j + 1) ≤ lcsDp R E (i + 1) j + 1 := by
              have d1 : lcsDp R E i (j + 1) ≤ lcsDp R E i j + 1 := bij.2.2.2
              have a1 : lcsDp R E i j ≤ lcsDp R E (i + 1) j := bij.1
              omega
            have h4 : lcsDp R E (i + 1) j ≤ lcsDp R E (i + 1) j + 1 := by omega
            omega
          · have a1 : lcsDp R E i (j + 1) ≤ lcsDp R E (i + 1) (j + 1) := bij1.1
            have a2 : lcsDp R E (i + 1) j ≤ lcsDp R E (i + 2) j := bi1j.1
            omega
        · -- lcsDp (i+1) (j+1) ≤ lcsDp (i+1) (j+2)
          rw [lcsDp_succ R E i j, lcsDp_succ R E i (j + 1)]
          split_ifs with h1 h2 h2
          · omega
          · have : lcsDp R E (i + 1) (j + 1) = lcsDp R E i j + 1 := by
              rw [lcsDp_succ, if_pos h1]
            have hle : lcsDp R E i j + 1 ≤ lcsDp R E (i + 1) (j + 1) := this.ge
            exact le_trans hle (le_max_right _ _)
          · have h3 : lcsDp R E (i + 1) j ≤ lcsDp R E i (j + 1) + 1 := by
              have d1 : lcsDp R E (i + 1) j ≤ lcsDp R E i j + 1 := bij.2.2.1
              have a1 : lcsDp R E i j ≤ lcsDp R E i (j + 1) := bij.2.1
              omega
            omega
          · have a1 : lcsDp R E i (j + 1) ≤ lcsDp R E i (j + 2) := bij1.2.1
            have a2 : lcsDp R E (i + 1) j ≤ lcsDp R E (i + 1) (j + 1) := bi1j.2.1
            omega
        · -- lcsDp (i+2) (j+1) ≤ lcsDp (i+1) (j+1) + 1
          rw [lcsDp_succ R E (i + 1) j, lcsDp_succ R E i j]
          split_ifs with h1 h2 h2
          · have b1 : lcsDp R E (i + 1) j ≤ lcsDp R E (i + 1) (j + 1) := bi1j.2.1
            have : lcsDp R E (i + 1) (j + 1) = lcsDp R E i j + 1 := by
              rw [lcsDp_succ, if_pos h2]
            omega
          · -- P (i+1) j true, P i j false
            have b1 : lcsDp R E (i + 1) j ≤ lcsDp R E (i + 1) (j + 1) := bi1j.2.1
            have : lcsDp R E (i + 1) (j + 1) =
                max (lcsDp R E i (j + 1)) (lcsDp R E (i + 1) j) := by
              rw [lcsDp_succ, if_neg h2]
            omega
          · -- P (i+1) j false, P i j true
            have c1 : lcsDp R E (i + 2) j ≤ lcsDp R E (i + 1) j + 1 := bi1j.2.2.1
            have b1 : lcsDp R E (i + 1) j ≤ lcsDp R E (i + 1) (j + 1) := bi1j.2.1
            have : lcsDp R E (i + 1) (j + 1) = lcsDp R E i j + 1 := by
              rw [lcsDp_succ, if_pos h2]
            omega
          · have c1 : lcsDp R E (i + 2) j ≤ lcsDp R E (i + 1) j + 1 := bi1j.2.2.1
            have b1 : lcsDp R E (i + 1) j ≤ lcsDp R E (i + 1) (j + 1) := bi1j.2.1
            have a1 : lcsDp R E (i + 1) (j + 1) =
                max (lcsDp R E i (j + 1)) (lcsDp R E (i + 1) j) := by
              rw [lcsDp_succ, if_neg h2]
            omega
        · -- lcsDp (i+1) (j+2) ≤ lcsDp (i+1) (j+1) + 1
          rw [lcsDp_succ R E i (j + 1), lcsDp_succ R E i j]
          split_ifs with h1 h2 h2
          · have b1 : lcsDp R E i (j + 1) ≤ lcsDp R E (i + 1) (j + 1) := bij1.1
            have : lcsDp R E (i + 1) (j + 1) = lcsDp R E i j + 1 := by
              rw [lcsDp_succ, if_pos h2]
            omega
          · have b1 : lcsDp R E i (j + 1) ≤ lcsDp R E (i + 1) (j + 1) := bij1.1
            have : lcsDp R E (i + 1) (j + 1) =
                max (lcsDp R E i (j + 1)) (lcsDp R E (i + 1) j) := by
              rw [lcsDp_succ, if_neg h2]
            omega
          · have d1 : lcsDp R E i (j + 2) ≤ lcsDp R E i (j + 1) + 1 := bij1.2.2.2
            have b1 : lcsDp R E i (j + 1) ≤ lcsDp R E (i + 1) (j + 1) := bij1.1
            have : lcsDp R E (i + 1) (j + 1) = lcsDp R E i j + 1 := by
              rw [lcsDp_succ, if_pos h2]
            omega
          · have d1 : lcsDp R E i (j + 2) ≤ lcsDp R E i (j + 1) + 1 := bij1.2.2.2
            have b1 : lcsDp R E i (j + 1) ≤ lcsDp R E (i + 1) (j + 1) := bij1.1
            have a1 : lcsDp R E (i + 1) (j + 1) =
                max (lcsDp R E i (j + 1)) (lcsDp R E (i + 1) j) := by
              rw [lcsDp_succ, if_neg h2]
            omega

lemma getD_set_self (l : List Str) (k : Nat) (x : Str) (h : k < l.length) :
    (l.set k x).getD k [] = x := by
  simp [List.getD, List.getElem?_set_self', h]

lemma getD_set_ne (l : List Str) (k m : Nat) (x : Str) (h : m ≠ k) :
    (l.set k x).getD m [] = l.getD m [] := by
  simp [List.getD, List.getElem?_set_ne (by omega : k ≠ m)]

lemma getD_mem_of_lt (l : List Str) (j : Nat) (h : j < l.length) : l.getD j [] ∈ l := by
  rw [List.getD_eq_getElem l [] h]
  exact List.getElem_mem h

lemma lcsDp_prefix_min (R E : List Str) (k : Nat)
    (hpre : ∀ m, m < k → R.getD m [] = E.getD m []) :
    ∀ n i j, i + j ≤ n → i ≤ k → j ≤ k → lcsDp R E i j = min i j := by
  intro n
  induction n with
  | zero =>
    intro i j h hik hjk
    have hi : i = 0 := by omega
    subst hi
    simp [lcsDp_zero_left]
  | succ m ih =>
    intro i j h hik hjk
    cases i with
    | zero => simp [lcsDp_zero_left]
    | succ i =>
      cases j with
      | zero => simp [lcsDp_zero_right]
      | succ j =>
        rw [lcsDp_succ, hpre i (by omega)]
        rcases eq_or_ne (E.getD i []) (E.getD j []) with he | he
        · rw [if_pos he, ih i j (by omega) (by omega) (by omega)]
          omega
        · have hij : i ≠ j := fun hc => he (hc ▸ rfl)
          rw [if_neg he, ih i (j + 1) (by omega) (by omega) (by omega),
            ih (i + 1) j (by omega) (by omega) (by omega)]
          omega

lemma lcsDp_setRow (E : List Str) (k : Nat) (x : Str)
    (hk : k < E.length) (hx : x ∉ E) :
    ∀ j, j ≤ k → lcsDp (E.set k x) E (k + 1) j = lcsDp (E.set k x) E k j := by
  intro j
  induction j with
  | zero => intro _; rw [lcsDp_zero_right, lcsDp_zero_right]
  | succ j ih =>
    intro hj
    have hxj : (E.set k x).getD k [] ≠ E.getD j [] := by
      rw [getD_set_self E k x hk]
      intro hc
      exact hx (hc ▸ getD_mem_of_lt E j (by omega))
    rw [lcsDp_succ, if_neg hxj, ih (by omega)]
    have hmono : lcsDp (E.set k x) E k j ≤ lcsDp (E.set k x) E k (j + 1) :=
      (lcsDp_step_bounds (E.set k x) E (k + j) k j (by omega)).2.1
    omega

lemma backtrackGo_fuel_eq (R E : List Str) :
    ∀ f1 f2 i j, i + j ≤ f1 → i + j ≤ f2 →
      backtrackGo R E f1 i j = backtrackGo R E f2 i j := by
  intro f1
  induction f1 with
  | zero =>
    intro f2 i j h1 h2
    have hi : i = 0 := by omega
    have hj : j = 0 := by omega
    subst hi hj
    cases f2 with
    | zero => rfl
    | succ g => simp [backtrackGo]
  | succ f ih =>
    intro f2 i j h1 h2
    by_cases hz : i = 0 ∧ j = 0
    · obtain ⟨rfl, rfl⟩ := hz
      cases f2 with
      | zero => simp [backtrackGo]
      | succ g => simp [backtrackGo]
    · have hipos : 0 < i ∨ 0 < j := by omega
      obtain ⟨g, rfl⟩ : ∃ g, f2 = g + 1 := ⟨f2 - 1, by omega⟩
      show (if i = 0 ∧ j = 0 then [] else _) = (if i = 0 ∧ j = 0 then [] else _)
      rw [if_neg hz, if_neg hz]
      by_cases hm : 0 < i ∧ 0 < j ∧ R.getD (i - 1) [] = E.getD (j - 1) []
      · rw [if_pos hm, if_pos hm, ih g (i - 1) (j - 1) (by omega) (by omega)]
      · rw [if_neg hm, if_neg hm]
        by_cases hmi : 0 < j ∧ (i = 0 ∨ lcsDp R E (i - 1) j ≤ lcsDp R E i (j - 1))
        · rw [if_pos hmi, if_pos hmi, ih g i (j - 1) (by omega) (by omega)]
        · rw [if_neg hmi, if_neg hmi]
          have hi1 : 0 < i := by
            rcases hipos with hi | hj
            · exact hi
            · by_contra hc
              exact hmi ⟨hj, Or.inl (by omega)⟩
          rw [ih g (i - 1) j (by omega) (by omega)]

lemma backtrack_eq (R E : List Str) (i j : Nat) :
    backtrack R E i j =
      if i = 0 ∧ j = 0 then []
      else if 0 < i ∧ 0 < j ∧ R.getD (i - 1) [] = E.getD (j - 1) [] then
        backtrack R E (i - 1) (j - 1) ++ [AlignItem.matched (j - 1) (i - 1)]
      else if 0 < j ∧ (i = 0 ∨ lcsDp R E (i - 1) j ≤ lcsDp R E i (j - 1)) then
        backtrack R E i (j - 1) ++ [AlignItem.missing (j - 1)]
      else backtrack R E (i - 1) j ++ [AlignItem.extra (i - 1)] := by
  unfold backtrack
  rcases Nat.eq_zero_or_pos (i + j) with h0 | hpos
  · have hi : i = 0 := by omega
    have hj : j = 0 := by omega
    subst hi hj
    simp [backtrackGo]
  · obtain ⟨m, hm⟩ : ∃ m, i + j = m + 1 := ⟨i + j - 1, by omega⟩
    rw [hm]
    show (if i = 0 ∧ j = 0 then [] else _) = _
    by_cases hz : i = 0 ∧ j = 0
    · omega
    · rw [if_neg hz, if_neg hz]
      by_cases hmt : 0 < i ∧ 0 < j ∧ R.getD (i - 1) [] = E.getD (j - 1) []
      · rw [if_pos hmt, if_pos hmt,
          backtrackGo_fuel_eq R E m ((i - 1) + (j - 1)) (i - 1) (j - 1) (by omega) (by omega)]
      · rw [if_neg hmt, if_neg hmt]
        by_cases hmi : 0 < j ∧ (i = 0 ∨ lcsDp R E (i - 1) j ≤ lcsDp R E i (j - 1))
        · rw [if_pos hmi, if_pos hmi,
            backtrackGo_fuel_eq R E m (i + (j - 1)) i (j - 1) (by omega) (by omega)]
        · rw [if_neg hmi, if_neg hmi]
          have hi1 : 0 < i := by
            by_contra hc
            rcases Nat.eq_zero_or_pos j with hj0 | hjp
            · exact hz ⟨by omega, hj0⟩
            · exact hmi ⟨hjp, Or.inl (by omega)⟩
          rw [backtrackGo_fuel_eq R E m ((i - 1) + j) (i - 1) j (by omega) (by omega)]

lemma range'_succ_concat (s n : Nat) : List.range' s (n + 1) = List.range' s n ++ [s + n] := by
  have h : List.range' s (n + 1) 1 = List.range' s n 1 ++ [s + 1 * n] := List.range'_concat s n
  simpa using h

lemma backtrack_diag_low (E : List Str) (k : Nat) (x : Str) :
    ∀ i, i ≤ k →
      backtrack (E.set k x) E i i = (List.range i).map (fun t => AlignItem.matched t t) := by
  intro i
  induction i with
  | zero => intro _; rw [backtrack_eq]; simp
  | succ i ih =>
    intro hi
    rw [backtrack_eq, if_neg (by simp),
      if_pos ⟨Nat.succ_pos i, Nat.succ_pos i,
        by show (E.set k x).getD i [] = E.getD i []; exact getD_set_ne E k i x (by omega)⟩]
    simp only [Nat.add_sub_cancel]
    rw [ih (by omega), List.range_succ, List.map_append]
    simp

lemma backtrack_at_k1 (E : List Str) (k : Nat) (x : Str)
    (hk : k < E.length) (hx : x ∉ E) :
    backtrack (E.set k x) E (k + 1) (k + 1) =
      (List.range k).map (fun t => AlignItem.matched t t) ++
        [AlignItem.extra k, AlignItem.missing k] := by
  have hpre : ∀ m, m < k → (E.set k x).getD m [] = E.getD m [] :=
    fun m hm => getD_set_ne E k m x (by omega)
  have hkk : lcsDp (E.set k x) E k k = k := by
    rw [lcsDp_prefix_min (E.set k x) E k hpre (k + k) k k le_rfl le_rfl le_rfl]
    omega
  have hrow := lcsDp_setRow E k x hk hx
  have hk1k : lcsDp (E.set k x) E (k + 1) k = k := by rw [hrow k le_rfl, hkk]
  have hkk1 : lcsDp (E.set k x) E k (k + 1) ≤ k :=
    lcsDp_le_left (E.set k x) E (k + (k + 1)) k (k + 1) le_rfl
  have hxE : ∀ j, j < E.length → ¬((E.set k x).getD k [] = E.getD j []) := by
    intro j hj hc
    rw [getD_set_self E k x hk] at hc
    exact hx (hc ▸ getD_mem_of_lt E j hj)
  rw [backtrack_eq, if_neg (by simp),
    if_neg (fun h => hxE k hk (by simpa using h.2.2)),
    if_pos ⟨Nat.succ_pos k, Or.inr (by simp only [Nat.add_sub_cancel]; rw [hk1k]; exact hkk1)⟩]
  simp only [Nat.add_sub_cancel]
  rw [backtrack_eq, if_neg (by simp),
    if_neg (fun h => hxE (k - 1) (by have := h.2.1; omega) (by simpa using h.2.2)),
    if_neg ?hmiss]
  case hmiss =>
    rintro ⟨hk0, h2 | h2⟩
    · omega
    · simp only [Nat.add_sub_cancel] at h2
      rw [hrow (k - 1) (by omega),
        lcsDp_prefix_min (E.set k x) E k hpre (k + k) k (k - 1) (by omega) le_rfl (by omega),
        hkk] at h2
      omega
  simp only [Nat.add_sub_cancel]
  rw [backtrack_diag_low E k x k le_rfl]
  simp [List.append_assoc]

lemma backtrack_diag_high (E : List Str) (k : Nat) (x : Str) :
    ∀ d, k + 1 + d ≤ E.length →
      backtrack (E.set k x) E (k + 1 + d) (k + 1 + d) =
        backtrack (E.set k x) E (k + 1) (k + 1) ++
          (List.range' (k + 1) d).map (fun t => AlignItem.matched t t) := by
  intro d
  induction d with
  | zero => intro _; simp
  | succ d ih =>
    intro hd
    have hidx : k + 1 + (d + 1) = (k + 1 + d) + 1 := by omega
    rw [hidx, backtrack_eq, if_neg (by simp),
      if_pos ⟨Nat.succ_pos _, Nat.succ_pos _,
        by show (E.set k x).getD (k + 1 + d) [] = E.getD (k + 1 + d) []
           exact getD_set_ne E k (k + 1 + d) x (by omega)⟩]
    simp only [Nat.add_sub_cancel]
    rw [ih (by omega), range'_succ_concat, List.map_append, List.append_assoc]
    simp

/-- The alignment produced for a single fresh substitution at position k. -/
def subAlign (k n : Nat) : List AlignItem :=
  (List.range k).map (fun t => AlignItem.matched t t) ++
    [AlignItem.extra k, AlignItem.missing k] ++
    (List.range' (k + 1) (n - (k + 1))).map (fun t => AlignItem.matched t t)

lemma backtrack_subAlign (E : List Str) (k : Nat) (x : Str)
    (hk : k < E.length) (hx : x ∉ E) :
    backtrack (E.set k x) E E.length E.length = subAlign k E.length := by
  have hd := backtrack_diag_high E k x (E.length - (k + 1)) (by omega)
  rw [show k + 1 + (E.length - (k + 1)) = E.length from by omega] at hd
  rw [hd, backtrack_at_k1 E k x hk hx, subAlign, List.append_assoc]

lemma subAlign_length (k n : Nat) (hk : k < n) : (subAlign k n).length = n + 1 := by
  simp [subAlign]
  omega

lemma subAlign_getD_low (k n t : Nat) (ht : t < k) :
    (subAlign k n).getD t (.extra 0) = AlignItem.matched t t := by
  unfold subAlign
  rw [List.append_assoc]
  have h1 : t < ((List.range k).map (fun t => AlignItem.matched t t)).length := by simpa using ht
  simp [List.getD, List.getElem?_append, h1, List.getElem?_map, List.getElem?_range, ht]

lemma subAlign_getD_k (k n : Nat) :
    (subAlign k n).getD k (.extra 0) = AlignItem.extra k := by
  unfold subAlign
  rw [List.append_assoc]
  have h1 : ((List.range k).map (fun t => AlignItem.matched t t)).length = k := by simp
  rw [List.getD_append_right _ _ _ _ (by omega), h1, Nat.sub_self]
  rfl

lemma subAlign_getD_k1 (k n : Nat) :
    (subAlign k n).getD (k + 1) (.extra 0) = AlignItem.missing k := by
  unfold subAlign
  rw [List.append_assoc]
  have h1 : ((List.range k).map (fun t => AlignItem.matched t t)).length = k := by simp
  rw [List.getD_append_right _ _ _ _ (by omega), h1, Nat.add_sub_cancel_left]
  rfl

lemma subAlign_getD_high (k n t : Nat) (ht : k + 2 ≤ t) (ht2 : t ≤ n) :
    (subAlign k n).getD t (.extra 0) = AlignItem.matched (t - 1) (t - 1) := by
  unfold subAlign
  rw [List.append_assoc]
  have h1 : ((List.range k).map (fun t => AlignItem.matched t t)).length = k := by simp
  have hnot : ¬ t < k := by omega
  have hidx : t - k - 2 < n - (k + 1) := by omega
  have hmap : (AlignItem.extra k :: AlignItem.missing k ::
        (List.range' (k + 1) (n - (k + 1))).map (fun t => AlignItem.matched t t)).getD
      (t - k) (.extra 0) = AlignItem.matched (t - 1) (t - 1) := by
    have hg : t - k = (t - k - 2) + 2 := by omega
    rw [hg]
    show ((List.range' (k + 1) (n - (k + 1))).map (fun t => AlignItem.matched t t)).getD
      (t - k - 2) (.extra 0) = _
    rw [List.getD_eq_getElem _ _ (by simpa using hidx)]
    simp only [List.getElem_map, List.getElem_range']
    congr 1 <;> omega
  rw [List.getD_append_right _ _ _ _ (by omega : ((List.range k).map
      (fun t => AlignItem.matched t t)).length ≤ t), h1]
  convert hmap using 2

lemma buildMistakes_step_matched (recW expW : List Str) (al : List AlignItem)
    (fuel ai e r : Nat) (hai : ai < al.length)
    (hm : al.getD ai (.extra 0) = AlignItem.matched e r) :
    buildMistakes recW expW al (fuel + 1) ai = buildMistakes recW expW al fuel (ai + 1) := by
  rw [buildMistakes, if_pos hai, hm]

lemma buildMistakes_step_wrong (recW expW : List Str) (al : List AlignItem)
    (fuel ai e r : Nat) (hai1 : ai + 1 < al.length)
    (h1 : al.getD ai (.extra 0) = AlignItem.extra r)
    (h2 : al.getD (ai + 1) (.extra 0) = AlignItem.missing e) :
    buildMistakes recW expW al (fuel + 1) ai =
      ⟨MistakeType.wrong, e, some (expW.getD e []), some (recW.getD r [])⟩ ::
        buildMistakes recW expW al fuel (ai + 2) := by
  rw [buildMistakes, if_pos (by omega : ai < al.length), h1, h2, decide_eq_true hai1]

lemma buildMistakes_matched_suffix (recW expW : List Str) (al : List AlignItem) :
    ∀ fuel ai,
      (∀ t, ai ≤ t → t < al.length → ∃ e r, al.getD t (.extra 0) = AlignItem.matched e r) →
      buildMistakes recW expW al fuel ai = [] := by
  intro fuel
  induction fuel with
  | zero => intro ai h; rfl
  | succ f ih =>
    intro ai h
    by_cases hai : ai < al.length
    · obtain ⟨e, r, hm⟩ := h ai le_rfl hai
      rw [buildMistakes_step_matched recW expW al f ai e r hai hm]
      exact ih (ai + 1) (fun t ht1 ht2 => h t (by omega) ht2)
    · rw [buildMistakes, if_neg hai]

lemma buildMistakes_subAlign (recW expW : List Str) (k n : Nat) (hk : k < n) :
    buildMistakes recW expW (subAlign k n) ((subAlign k n).length + 1) 0 =
      [⟨MistakeType.wrong, k, some (expW.getD k []), some (recW.getD k [])⟩] := by
  have hlen := subAlign_length k n hk
  have hdesc : ∀ d ai fuel, ai + d = k →
      buildMistakes recW expW (subAlign k n) (fuel + d) ai =
        buildMistakes recW expW (subAlign k n) fuel k := by
    intro d
    induction d with
    | zero =>
      intro ai fuel h
      rw [show ai = k from by omega, Nat.add_zero]
    | succ d ih =>
      intro ai fuel h
      rw [show fuel + (d + 1) = (fuel + d) + 1 from by omega,
        buildMistakes_step_matched recW expW _ (fuel + d) ai ai ai
          (by rw [hlen]; omega) (subAlign_getD_low k n ai (by omega)),
        ih (ai + 1) fuel (by omega)]
  rw [show (subAlign k n).length + 1 = (n - k + 2) + k from by omega,
    hdesc k 0 (n - k + 2) (by omega),
    show n - k + 2 = (n - k + 1) + 1 from by omega,
    buildMistakes_step_wrong recW expW _ (n - k + 1) k k k
      (by rw [hlen]; omega) (subAlign_getD_k k n) (subAlign_getD_k1 k n),
    buildMistakes_matched_suffix recW expW _ (n - k + 1) (k + 2) ?hsuf]
  case hsuf =>
    intro t ht1 ht2
    rw [hlen] at ht2
    exact ⟨t - 1, t - 1, subAlign_getD_high k n t ht1 (by omega)⟩

/-- C2 amended: for an expected token sequence of length n at least 1 and a
recognized sequence equal to it except for one substituted token whose value
does not occur anywhere in the expected sequence, compareRecitation's core
returns exactly one mistake, of kind wrong, at the substituted index (with
the expected and substituted words attached), and score
round(100*(n-1)/n). -/
theorem compareWords_single_substitution (E : List Str) (k : Nat) (x : Str)
    (hk : k < E.length) (hx : x ∉ E) :
    compareWords (E.set k x) E =
      ⟨jsRound (100 * ((E.length : ℚ) - 1) / (E.length : ℚ)),
       [⟨MistakeType.wrong, k, some (E.getD k []), some x⟩]⟩ := by
  have hn : 1 ≤ E.length := by omega
  have hlenR : (E.set k x).length = E.length := by simp
  unfold compareWords
  rw [if_neg (by omega), if_neg (by rw [hlenR]; omega)]
  dsimp only
  rw [hlenR, backtrack_subAlign E k x hk hx,
    buildMistakes_subAlign (E.set k x) E k E.length hk,
    getD_set_self E k x hk]
  have hfil : (List.filter (fun mk => !(mk.type == MistakeType.extra))
      [(⟨MistakeType.wrong, k, some (E.getD k []), some x⟩ : Mistake)]).length = 1 := by
    rfl
  rw [hfil]
  have hcast : (1 : ℚ) ≤ (E.length : ℚ) := by exact_mod_cast hn
  have harg : ((((E.length : ℤ) - ((1 : ℕ) : ℤ)) : ℤ) : ℚ) / (E.length : ℚ) * 100 =
      100 * ((E.length : ℚ) - 1) / (E.length : ℚ) := by
    push_cast
    ring
  rw [harg]
  have hnn : (0 : ℤ) ≤ jsRound (100 * ((E.length : ℚ) - 1) / (E.length : ℚ)) := by
    unfold jsRound
    apply Rat.le_floor.mpr
    have h1 : (0 : ℚ) ≤ (E.length : ℚ) - 1 := by linarith
    have h2 : (0 : ℚ) ≤ 100 * ((E.length : ℚ) - 1) / (E.length : ℚ) :=
      div_nonneg (by linarith) (by positivity)
    push_cast
    linarith
  rw [show jsMaxZero (jsRound (100 * ((E.length : ℚ) - 1) / (E.length : ℚ))) =
      jsRound (100 * ((E.length : ℚ) - 1) / (E.length : ℚ)) from
    by unfold jsMaxZero; rw [if_neg (not_lt.mpr hnn)]]

/-- Witness for the amended C2 on a concrete four-token sequence with a
fresh token substituted at position 1. -/
theorem compareWords_single_substitution_witness :
    compareWords ((["ب".toList, "ت".toList, "ث".toList, "ج".toList] : List Str).set 1 "ش".toList)
        ["ب".toList, "ت".toList, "ث".toList, "ج".toList] =
      ⟨jsRound (100 * (((["ب".toList, "ت".toList, "ث".toList, "ج".toList] : List Str).length : ℚ) - 1) /
          ((["ب".toList, "ت".toList, "ث".toList, "ج".toList] : List Str).length : ℚ)),
       [⟨MistakeType.wrong, 1, some "ت".toList, some "ش".toList⟩]⟩ := by
  have h := compareWords_single_substitution
    ["ب".toList, "ت".toList, "ث".toList, "ج".toList] 1 "ش".toList (by decide) (by decide)
  rw [h, show (["ب".toList, "ت".toList, "ث".toList, "ج".toList] : List Str).getD 1 [] =
    "ت".toList from rfl]


/-! ### Whitespace canonicalization lemmas (claims C3 and C10) -/

/-- List.intercalate with a single space, written recursively for easier
induction; collapseWS and the word-join step of normalizeArabic equal joinWS
of the corresponding word lists. -/
def joinWS : List Str → Str
  | [] => []
  | [w] => w
  | w :: ws => w ++ ' ' :: joinWS ws

/-- A whitespace-free word. -/
def wsFree (w : Str) : Prop := ∀ c ∈ w, wsChar c = false

/-- The nonempty tokens of a string (split on whitespace runs, empty pieces
dropped), i.e. the JavaScript split-filter(Boolean) combination. -/
def wordsOf (s : Str) : List Str := (splitWS s).filter (fun w => !w.isEmpty)

lemma joinWS_cons_cons (p q : Str) (ps : List Str) :
    joinWS (p :: q :: ps) = p ++ ' ' :: joinWS (q :: ps) := rfl

lemma joinWS_eq_intercalate (ps : List Str) : joinWS ps = List.intercalate [' '] ps := by
  induction ps with
  | nil => rfl
  | cons w ws ih =>
    cases ws with
    | nil => simp [joinWS, List.intercalate]
    | cons v vs =>
      rw [joinWS_cons_cons, ih]
      simp [List.intercalate, List.intersperse]

lemma collapseWS_eq_joinWS (s : Str) : collapseWS s = joinWS (splitWS s) := by
  rw [collapseWS, joinWS_eq_intercalate]

lemma joinWS_cons (p : Str) (ps : List Str) (h : ps ≠ []) :
    joinWS (p :: ps) = p ++ ' ' :: joinWS ps := by
  cases ps with
  | nil => exact absurd rfl h
  | cons q ps => rfl

lemma joinWS_concat (ps : List Str) (q : Str) (h : ps ≠ []) :
    joinWS (ps ++ [q]) = joinWS ps ++ ' ' :: q := by
  induction ps with
  | nil => exact absurd rfl h
  | cons p ps ih =>
    cases ps with
    | nil => rfl
    | cons r rs =>
      rw [List.cons_append, joinWS_cons p (r :: rs ++ [q]) (by simp),
        joinWS_cons p (r :: rs) (by simp), ih (by simp), List.append_assoc]
      rfl

lemma splitWS_ws_ws (c d : Char) (ds : Str) (hc : wsChar c = true)
    (hd : wsChar d = true) : splitWS (c :: d :: ds) = splitWS (d :: ds) := by
  rw [splitWS.eq_def]
  simp [hc, hd]

lemma splitWS_ws_nonws (c d : Char) (ds : Str) (hc : wsChar c = true)
    (hd : wsChar d = false) : splitWS (c :: d :: ds) = [] :: splitWS (d :: ds) := by
  rw [splitWS.eq_def]
  simp [hc, hd]

lemma splitWS_ws_nil (c : Char) (hc : wsChar c = true) :
    splitWS [c] = [[], []] := by
  rw [splitWS.eq_def]
  simp [hc]

lemma splitWS_ne_nil (s : Str) : splitWS s ≠ [] := by
  induction s with
  | nil => simp [splitWS]
  | cons c cs ih =>
    rw [splitWS.eq_def]
    dsimp only
    by_cases hc : wsChar c = true
    · rw [if_pos hc]
      cases cs with
      | nil => simp
      | cons d ds =>
        dsimp only
        by_cases hd : wsChar d = true
        · rw [if_pos hd]; exact ih
        · rw [if_neg hd]; simp
    · rw [if_neg hc]
      cases h : splitWS cs with
      | nil => simp
      | cons w ws => simp

lemma splitWS_nonws (c : Char) (cs : Str) (hc : wsChar c = false) :
    ∃ w tail, splitWS (c :: cs) = (c :: w) :: tail ∧ splitWS cs = w :: tail := by
  cases h : splitWS cs with
  | nil => exact absurd h (splitWS_ne_nil cs)
  | cons w ws =>
    refine ⟨w, ws, ?_, rfl⟩
    rw [splitWS.eq_def]
    dsimp only
    rw [if_neg (by simp [hc]), h]

lemma splitWS_ws_head (cs : Str) : ∀ c, wsChar c = true → ∃ T, splitWS (c :: cs) = [] :: T := by
  induction cs with
  | nil => intro c h; exact ⟨[[]], splitWS_ws_nil c h⟩
  | cons d ds ih =>
    intro c h
    by_cases hd : wsChar d = true
    · obtain ⟨T, hT⟩ := ih d hd
      exact ⟨T, by rw [splitWS_ws_ws c d ds h hd, hT]⟩
    · have hd2 : wsChar d = false := by simpa using hd
      exact ⟨splitWS (d :: ds), splitWS_ws_nonws c d ds h hd2⟩

lemma splitWS_word_sep (p : Str) (hp : wsFree p) (z : Str) (T : List Str)
    (hT : splitWS (' ' :: z) = [] :: T) :
    splitWS (p ++ ' ' :: z) = p :: T := by
  induction p with
  | nil => simpa using hT
  | cons c p2 ih =>
    have hc : wsChar c = false := hp c (by simp)
    have hp2 : wsFree p2 := fun x hx => hp x (by simp [hx])
    obtain ⟨w, tail, h1, h2⟩ := splitWS_nonws c (p2 ++ ' ' :: z) hc
    rw [List.cons_append, h1]
    have h3 : w :: tail = p2 :: T := by rw [← h2, ih hp2]
    injection h3 with hw ht
    subst hw
    subst ht
    rfl

lemma splitWS_wsFree_word (p : Str) (hp : wsFree p) : splitWS p = [p] := by
  induction p with
  | nil => rfl
  | cons c p2 ih =>
    have hc : wsChar c = false := hp c (by simp)
    obtain ⟨w, tail, h1, h2⟩ := splitWS_nonws c p2 hc
    have h3 : w :: tail = [p2] := by
      rw [← h2, ih (fun x hx => hp x (by simp [hx]))]
    injection h3 with hw ht
    subst hw
    subst ht
    exact h1

lemma splitWS_joinWS (ps : List Str) (hne : ps ≠ [])
    (hfree : ∀ w ∈ ps, wsFree w) (hnonempty : ∀ w ∈ ps, w ≠ []) :
    splitWS (joinWS ps) = ps := by
  induction ps with
  | nil => exact absurd rfl hne
  | cons p ps ih =>
    cases ps with
    | nil => exact splitWS_wsFree_word p (hfree p (by simp))
    | cons q rest =>
      rw [joinWS_cons_cons]
      have hz : splitWS (joinWS (q :: rest)) = q :: rest :=
        ih (by simp) (fun w hw => hfree w (by simp [hw]))
          (fun w hw => hnonempty w (by simp [hw]))
      obtain ⟨e, q2, he⟩ : ∃ e q2, q = e :: q2 := by
        cases hq : q with
        | nil => exact absurd hq (hnonempty q (by simp))
        | cons e q2 => exact ⟨e, q2, rfl⟩
      have hew : wsChar e = false := hfree q (by simp) e (by simp [he])
      have hjz : ∃ z2, joinWS (q :: rest) = e :: z2 := by
        cases rest with
        | nil => exact ⟨q2, by simp [joinWS, he]⟩
        | cons r rs => exact ⟨q2 ++ ' ' :: joinWS (r :: rs), by rw [joinWS_cons_cons, he]; rfl⟩
      obtain ⟨z2, hz2⟩ := hjz
      have hsp : splitWS (' ' :: joinWS (q :: rest)) = [] :: (q :: rest) := by
        rw [hz2, splitWS_ws_nonws ' ' e z2 (by decide) hew, ← hz2, hz]
      exact splitWS_word_sep p (hfree p (by simp)) _ _ hsp

lemma splitWS_sep_tail (z : Str) : ∃ T, splitWS (' ' :: z) = [] :: T ∧
    T.filter (fun w => !w.isEmpty) = wordsOf z := by
  cases z with
  | nil => exact ⟨[[]], splitWS_ws_nil ' ' (by decide), rfl⟩
  | cons d ds =>
    by_cases hd : wsChar d = true
    · obtain ⟨T, hT⟩ := splitWS_ws_head ds d hd
      refine ⟨T, ?_, ?_⟩
      · rw [splitWS_ws_ws ' ' d ds (by decide) hd, hT]
      · rw [wordsOf, hT]; rfl
    · have hd2 : wsChar d = false := by simpa using hd
      exact ⟨splitWS (d :: ds), splitWS_ws_nonws ' ' d ds (by decide) hd2, rfl⟩

lemma wordsOf_joinWS (ps : List Str) (hfree : ∀ w ∈ ps, wsFree w) :
    wordsOf (joinWS ps) = ps.filter (fun w => !w.isEmpty) := by
  induction ps with
  | nil => rfl
  | cons p ps ih =>
    cases ps with
    | nil =>
      rw [show joinWS [p] = p from rfl, wordsOf,
        splitWS_wsFree_word p (hfree p (by simp))]
    | cons q rest =>
      rw [joinWS_cons_cons]
      obtain ⟨T, hT, hTf⟩ := splitWS_sep_tail (joinWS (q :: rest))
      rw [wordsOf, splitWS_word_sep p (hfree p (by simp)) _ T hT]
      have hT2 : T.filter (fun w => !w.isEmpty) =
          (q :: rest).filter (fun w => !w.isEmpty) := by
        rw [hTf, ih (fun w hw => hfree w (by simp [hw]))]
      rw [List.filter_cons, List.filter_cons, hT2]

/-- Shape of splitWS output: a list of nonempty whitespace-free words,
possibly with one empty piece at the front (leading whitespace) and one at
the back (trailing whitespace). -/
def goodWords (ws0 : List Str) : Prop := ∀ w ∈ ws0, w ≠ [] ∧ wsFree w

lemma splitWS_shape (s : Str) : ∃ ws0 : List Str, goodWords ws0 ∧
    (splitWS s = ws0 ∨ splitWS s = [] :: ws0 ∨ splitWS s = ws0 ++ [[]] ∨
     splitWS s = [] :: (ws0 ++ [[]])) := by
  induction s with
  | nil => exact ⟨[], by simp [goodWords], Or.inr (Or.inr (Or.inl rfl))⟩
  | cons c cs ih =>
    obtain ⟨ws0, hgood, hcase⟩ := ih
    by_cases hc : wsChar c = true
    · cases cs with
      | nil =>
        exact ⟨[], by simp [goodWords],
          Or.inr (Or.inr (Or.inr (splitWS_ws_nil c hc)))⟩
      | cons d ds =>
        by_cases hd : wsChar d = true
        · exact ⟨ws0, hgood, by rw [splitWS_ws_ws c d ds hc hd]; exact hcase⟩
        · have hd2 : wsChar d = false := by simpa using hd
          obtain ⟨w, tail, h1, _⟩ := splitWS_nonws d ds hd2
          rcases hcase with h | h | h | h
          · exact ⟨ws0, hgood, Or.inr (Or.inl (by
              rw [splitWS_ws_nonws c d ds hc hd2, h]))⟩
          · rw [h1] at h; exact absurd (congrArg List.head? h) (by simp)
          · exact ⟨ws0, hgood, Or.inr (Or.inr (Or.inr (by
              rw [splitWS_ws_nonws c d ds hc hd2, h])))⟩
          · rw [h1] at h; exact absurd (congrArg List.head? h) (by simp)
    · have hc2 : wsChar c = false := by simpa using hc
      obtain ⟨w, tail, h1, h2⟩ := splitWS_nonws c cs hc2
      rcases hcase with h | h | h | h
      · rw [h2] at h
        cases ws0 with
        | nil => exact absurd h (by simp)
        | cons w0 rest0 =>
          injection h with hw ht
          subst hw; subst ht
          refine ⟨(c :: w) :: tail, ?_, Or.inl h1⟩
          intro x hx
          rcases List.mem_cons.mp hx with hx | hx
          · subst hx
            refine ⟨by simp, ?_⟩
            intro y hy
            rcases List.mem_cons.mp hy with hy | hy
            · subst hy; exact hc2
            · exact (hgood w (by simp)).2 y hy
          · exact hgood x (by simp [hx])
      · rw [h2] at h
        injection h with hw ht
        subst ht
        refine ⟨[c] :: tail, ?_, Or.inl (by rw [h1, ← hw])⟩
        intro x hx
        rcases List.mem_cons.mp hx with hx | hx
        · subst hx
          exact ⟨by simp, fun y hy => by
            rcases List.mem_cons.mp hy with hy | hy
            · subst hy; exact hc2
            · simp at hy⟩
        · exact hgood x hx
      · rw [h2] at h
        cases ws0 with
        | nil =>
          simp only [List.nil_append] at h
          injection h with hw ht
          subst ht
          refine ⟨[[c]], ?_, Or.inl (by rw [h1, ← hw])⟩
          intro x hx
          simp only [List.mem_singleton] at hx
          subst hx
          exact ⟨by simp, fun y hy => by
            rcases List.mem_cons.mp hy with hy | hy
            · subst hy; exact hc2
            · simp at hy⟩
        | cons w0 rest0 =>
          rw [List.cons_append] at h
          injection h with hw ht
          subst hw; subst ht
          refine ⟨(c :: w) :: rest0, ?_, Or.inr (Or.inr (Or.inl (by
            rw [h1, List.cons_append])))⟩
          intro x hx
          rcases List.mem_cons.mp hx with hx | hx
          · subst hx
            refine ⟨by simp, fun y hy => ?_⟩
            rcases List.mem_cons.mp hy with hy | hy
            · subst hy; exact hc2
            · exact (hgood w (by simp)).2 y hy
          · exact hgood x (by simp [hx])
      · rw [h2] at h
        injection h with hw ht
        subst ht
        refine ⟨[c] :: ws0, ?_, Or.inr (Or.inr (Or.inl (by
          rw [h1, ← hw, List.cons_append])))⟩
        intro x hx
        rcases List.mem_cons.mp hx with hx | hx
        · subst hx
          exact ⟨by simp, fun y hy => by
            rcases List.mem_cons.mp hy with hy | hy
            · subst hy; exact hc2
            · simp at hy⟩
        · exact hgood x hx

lemma trimWS_cons_ws (c : Char) (v : Str) (hc : wsChar c = true) :
    trimWS (c :: v) = trimWS v := by
  unfold trimWS
  rw [List.dropWhile_cons, if_pos hc]

lemma trimWS_concat_ws (v : Str) (c : Char) (hc : wsChar c = true) :
    trimWS (v ++ [c]) = trimWS v := by
  unfold trimWS
  rw [List.dropWhile_append]
  by_cases h : (v.dropWhile wsChar).isEmpty
  · rw [if_pos h]
    have h2 : v.dropWhile wsChar = [] := by simpa [List.isEmpty_iff] using h
    rw [h2, List.dropWhile_cons, if_pos hc]
    rfl
  · rw [if_neg h, List.reverse_append,
      show ([c] : Str).reverse ++ (v.dropWhile wsChar).reverse =
        c :: (v.dropWhile wsChar).reverse from rfl,
      List.dropWhile_cons, if_pos hc]

lemma joinWS_head_nonws (ws0 : List Str) (hg : goodWords ws0) (hne : ws0 ≠ []) :
    ∃ e v, joinWS ws0 = e :: v ∧ wsChar e = false := by
  cases ws0 with
  | nil => exact absurd rfl hne
  | cons q rest =>
    obtain ⟨hqne, hqf⟩ := hg q (by simp)
    obtain ⟨e, q2, he⟩ : ∃ e q2, q = e :: q2 := by
      cases hq : q with
      | nil => exact absurd hq hqne
      | cons e q2 => exact ⟨e, q2, rfl⟩
    cases rest with
    | nil => exact ⟨e, q2, by simp [joinWS, he], hqf e (by simp [he])⟩
    | cons r rs => exact ⟨e, q2 ++ ' ' :: joinWS (r :: rs),
        by rw [joinWS_cons_cons, he]; rfl, hqf e (by simp [he])⟩

lemma joinWS_last_nonws (ws0 : List Str) (hg : goodWords ws0) (hne : ws0 ≠ []) :
    ∃ v e, joinWS ws0 = v ++ [e] ∧ wsChar e = false := by
  rcases List.eq_nil_or_concat ws0 with rfl | ⟨ws1, q, hcc⟩
  · exact absurd rfl hne
  · rw [List.concat_eq_append] at hcc
    subst hcc
    obtain ⟨hqne, hqf⟩ := hg q (by simp)
    obtain ⟨v1, e, hq⟩ : ∃ v1 e, q = v1 ++ [e] := by
      rcases List.eq_nil_or_concat q with rfl | ⟨v1, e, hq⟩
      · exact absurd rfl hqne
      · exact ⟨v1, e, by rw [hq, List.concat_eq_append]⟩
    cases ws1 with
    | nil => exact ⟨v1, e, by rw [List.nil_append,
        show joinWS [q] = q from rfl, hq], hqf e (by simp [hq])⟩
    | cons r rs =>
      refine ⟨joinWS (r :: rs) ++ ' ' :: v1, e, ?_, hqf e (by simp [hq])⟩
      rw [joinWS_concat (r :: rs) q (by simp), hq, List.append_assoc]
      rfl

lemma trimWS_of_ends (u : Str) (h1 : ∃ e v, u = e :: v ∧ wsChar e = false)
    (h2 : ∃ v e, u = v ++ [e] ∧ wsChar e = false) : trimWS u = u := by
  obtain ⟨e1, v1, he1, hw1⟩ := h1
  obtain ⟨v2, e2, he2, hw2⟩ := h2
  unfold trimWS
  have hL : u.dropWhile wsChar = u := by
    rw [he1, List.dropWhile_cons, if_neg (by simp [hw1])]
  rw [hL, he2, List.reverse_append,
    show ([e2] : Str).reverse ++ v2.reverse = e2 :: v2.reverse from rfl,
    List.dropWhile_cons, if_neg (by simp [hw2]),
    List.reverse_cons, List.reverse_reverse]

lemma trimWS_joinWS_good (ws0 : List Str) (hg : goodWords ws0) :
    trimWS (joinWS ws0) = joinWS ws0 := by
  cases ws0 with
  | nil => rfl
  | cons q rest =>
    exact trimWS_of_ends _ (joinWS_head_nonws _ hg (by simp))
      (joinWS_last_nonws _ hg (by simp))

lemma filter_good (ws0 : List Str) (hg : goodWords ws0) :
    ws0.filter (fun w => !w.isEmpty) = ws0 :=
  List.filter_eq_self.mpr (fun w hw => by simp [List.isEmpty_iff, (hg w hw).1])

/-- The trim-collapse pair canonicalizes any string into its nonempty words
joined by single spaces. -/
lemma trim_collapse (u : Str) : trimWS (collapseWS u) = joinWS (wordsOf u) := by
  rw [collapseWS_eq_joinWS, wordsOf]
  obtain ⟨ws0, hg, hcase⟩ := splitWS_shape u
  rcases hcase with h | h | h | h
  · rw [h, trimWS_joinWS_good ws0 hg, filter_good ws0 hg]
  · rw [h]
    cases ws0 with
    | nil => rfl
    | cons q rest =>
      rw [joinWS_cons [] (q :: rest) (by simp), List.nil_append,
        trimWS_cons_ws ' ' _ (by decide), trimWS_joinWS_good _ hg,
        show (([] : Str) :: q :: rest).filter (fun w => !w.isEmpty) =
          (q :: rest).filter (fun w => !w.isEmpty) from rfl,
        filter_good _ hg]
  · rw [h]
    cases ws0 with
    | nil => rfl
    | cons q rest =>
      rw [joinWS_concat (q :: rest) [] (by simp),
        trimWS_concat_ws _ ' ' (by decide), trimWS_joinWS_good _ hg,
        List.filter_append,
        show ([([] : Str)]).filter (fun w => !w.isEmpty) = [] from rfl,
        List.append_nil, filter_good _ hg]
  · rw [h]
    cases ws0 with
    | nil => decide
    | cons q rest =>
      rw [joinWS_cons [] ((q :: rest) ++ [[]]) (by simp), List.nil_append,
        trimWS_cons_ws ' ' _ (by decide), joinWS_concat (q :: rest) [] (by simp),
        trimWS_concat_ws _ ' ' (by decide), trimWS_joinWS_good _ hg,
        show (([] : Str) :: ((q :: rest) ++ [[]])).filter (fun w => !w.isEmpty) =
          ((q :: rest) ++ [[]]).filter (fun w => !w.isEmpty) from rfl,
        List.filter_append,
        show ([([] : Str)]).filter (fun w => !w.isEmpty) = [] from rfl,
        List.append_nil, filter_good _ hg]

/-! ### Character cleanliness after normalization (claim C3) -/

/-- A character that survives every removal class of stripDiacritics. -/
def noDia (c : Char) : Bool :=
  !(inRange 0x64B 0x65F c) && !(inRange 0x610 0x61A c) &&
  !(inRange 0x6D6 0x6ED c) && !(c == superAlef) && !(inRange 0x653 0x656 c)

/-- A character left unchanged by stripDiacritics and all three folding
passes of normalizeArabic. -/
def cleanChar (c : Char) : Bool :=
  noDia c && !(c == Char.ofNat 0x623) && !(c == Char.ofNat 0x625) &&
  !(c == Char.ofNat 0x622) && !(c == Char.ofNat 0x671) &&
  !(c == Char.ofNat 0x649) && !(c == Char.ofNat 0x629)

lemma stripDiacritics_chars (s : Str) : ∀ c ∈ stripDiacritics s, noDia c = true := by
  intro c hc
  unfold stripDiacritics at hc
  simp only [List.mem_filter] at hc
  obtain ⟨⟨⟨⟨⟨_, h1⟩, h2⟩, h3⟩, h4⟩, h5⟩ := hc
  unfold noDia
  rw [h1, h2, h3, h4, h5]
  rfl

lemma replaceAllGo_mem (pat rep : Str) : ∀ fuel s c,
    c ∈ replaceAllGo pat rep fuel s → c ∈ s ∨ c ∈ rep := by
  intro fuel
  induction fuel with
  | zero =>
    intro s c hc
    cases s with
    | nil => simp [replaceAllGo] at hc
    | cons a as => exact Or.inl (by simpa [replaceAllGo] using hc)
  | succ n ih =>
    intro s c hc
    cases s with
    | nil => simp [replaceAllGo] at hc
    | cons a as =>
      rw [replaceAllGo] at hc
      by_cases h : (!pat.isEmpty && pat.isPrefixOf (a :: as)) = true
      · rw [if_pos h] at hc
        rcases List.mem_append.mp hc with h2 | h2
        · exact Or.inr h2
        · rcases ih _ c h2 with h3 | h3
          · exact Or.inl (List.mem_cons_of_mem a (List.mem_of_mem_drop h3))
          · exact Or.inr h3
      · rw [if_neg h] at hc
        rcases List.mem_cons.mp hc with rfl | h2
        · exact Or.inl (by simp)
        · rcases ih as c h2 with h3 | h3
          · exact Or.inl (by simp [h3])
          · exact Or.inr h3

lemma foldl_replace_mem (table : List (Str × Str)) : ∀ s c,
    c ∈ table.foldl (fun acc kv => replaceAll kv.1 kv.2 acc) s →
    c ∈ s ∨ ∃ kv ∈ table, c ∈ kv.2 := by
  induction table with
  | nil => intro s c hc; exact Or.inl hc
  | cons kv t ih =>
    intro s c hc
    rw [List.foldl_cons] at hc
    rcases ih _ c hc with h | ⟨kv2, hkv2, hc2⟩
    · rcases replaceAllGo_mem kv.1 kv.2 s.length s c h with h2 | h2
      · exact Or.inl h2
      · exact Or.inr ⟨kv, by simp, h2⟩
    · exact Or.inr ⟨kv2, by simp [hkv2], hc2⟩

lemma applyMappings_chars (s : Str) (h : ∀ c ∈ s, noDia c = true) :
    ∀ c ∈ applyMappings s, noDia c = true := by
  intro c hc
  rcases foldl_replace_mem letterMappings s c hc with h2 | ⟨kv, hkv, hc2⟩
  · exact h c h2
  · have hval : ∀ kv ∈ letterMappings, ∀ c ∈ kv.2, noDia c = true := by decide
    exact hval kv hkv c hc2

lemma stage5_clean (s : Str) :
    ∀ c ∈ foldTaaMarbuta (foldAlefMaqsura (foldAlefVariants
      (applyMappings (stripDiacritics s)))), cleanChar c = true := by
  intro c hc
  rcases List.mem_map.mp hc with ⟨b4, hb4, rfl⟩
  rcases List.mem_map.mp hb4 with ⟨b3, hb3, rfl⟩
  rcases List.mem_map.mp hb3 with ⟨b2, hb2, rfl⟩
  have hnb2 : noDia b2 = true :=
    applyMappings_chars _ (stripDiacritics_chars s) b2 hb2
  by_cases h1 : (b2 == Char.ofNat 0x623 || b2 == Char.ofNat 0x625 ||
      b2 == Char.ofNat 0x622 || b2 == Char.ofNat 0x671) = true
  · rw [if_pos h1]
    decide
  · rw [if_neg h1]
    by_cases h2 : (b2 == Char.ofNat 0x649) = true
    · rw [if_pos h2]
      decide
    · rw [if_neg h2]
      by_cases h3 : (b2 == Char.ofNat 0x629) = true
      · rw [if_pos h3]
        decide
      · rw [if_neg h3]
        simp only [Bool.or_eq_true, not_or] at h1
        unfold cleanChar
        rw [hnb2]
        simp only [Bool.not_eq_true] at h1 h2 h3
        rw [h1.1.1.1, h1.1.1.2, h1.1.2, h1.2, h2, h3]
        rfl

lemma stripDiacritics_clean (y : Str) (h : ∀ c ∈ y, cleanChar c = true) :
    stripDiacritics y = y := by
  have hd : ∀ c ∈ y, noDia c = true := by
    intro c hc
    have h2 := h c hc
    simp only [cleanChar, Bool.and_eq_true] at h2
    exact h2.1.1.1.1.1.1
  have hparts : ∀ c ∈ y, (!(inRange 0x64B 0x65F c)) = true ∧
      (!(inRange 0x610 0x61A c)) = true ∧ (!(inRange 0x6D6 0x6ED c)) = true ∧
      (!(c == superAlef)) = true ∧ (!(inRange 0x653 0x656 c)) = true := by
    intro c hc
    have h2 := hd c hc
    simp only [noDia, Bool.and_eq_true] at h2
    exact ⟨h2.1.1.1.1, h2.1.1.1.2, h2.1.1.2, h2.1.2, h2.2⟩
  have h1 : y.filter (fun c => !(inRange 0x64B 0x65F c)) = y :=
    List.filter_eq_self.mpr (fun c hc => (hparts c hc).1)
  have h2 : y.filter (fun c => !(inRange 0x610 0x61A c)) = y :=
    List.filter_eq_self.mpr (fun c hc => (hparts c hc).2.1)
  have h3 : y.filter (fun c => !(inRange 0x6D6 0x6ED c)) = y :=
    List.filter_eq_self.mpr (fun c hc => (hparts c hc).2.2.1)
  have h4 : y.filter (fun c => !(c == superAlef)) = y :=
    List.filter_eq_self.mpr (fun c hc => (hparts c hc).2.2.2.1)
  have h5 : y.filter (fun c => !(inRange 0x653 0x656 c)) = y :=
    List.filter_eq_self.mpr (fun c hc => (hparts c hc).2.2.2.2)
  unfold stripDiacritics
  rw [h1, h2, h3, h4, h5]

lemma foldAlefVariants_clean (y : Str) (h : ∀ c ∈ y, cleanChar c = true) :
    foldAlefVariants y = y := by
  unfold foldAlefVariants
  have hid : ∀ c ∈ y, (if c == Char.ofNat 0x623 || c == Char.ofNat 0x625 ||
      c == Char.ofNat 0x622 || c == Char.ofNat 0x671 then alefChar else c) = c := by
    intro c hc
    have h2 := h c hc
    simp only [cleanChar, Bool.and_eq_true, Bool.not_eq_true'] at h2
    rw [if_neg (by
      simp only [Bool.or_eq_true, not_or, Bool.not_eq_true]
      exact ⟨⟨⟨h2.1.1.1.1.1.2, h2.1.1.1.1.2⟩, h2.1.1.1.2⟩, h2.1.1.2⟩)]
  exact (List.map_congr_left hid).trans (List.map_id' y)

lemma foldAlefMaqsura_clean (y : Str) (h : ∀ c ∈ y, cleanChar c = true) :
    foldAlefMaqsura y = y := by
  unfold foldAlefMaqsura
  have hid : ∀ c ∈ y, (if c == Char.ofNat 0x649 then Char.ofNat 0x64A else c) = c := by
    intro c hc
    have h2 := h c hc
    simp only [cleanChar, Bool.and_eq_true, Bool.not_eq_true'] at h2
    rw [if_neg (by simp only [Bool.not_eq_true]; exact h2.1.2)]
  exact (List.map_congr_left hid).trans (List.map_id' y)

lemma foldTaaMarbuta_clean (y : Str) (h : ∀ c ∈ y, cleanChar c = true) :
    foldTaaMarbuta y = y := by
  unfold foldTaaMarbuta
  have hid : ∀ c ∈ y, (if c == Char.ofNat 0x629 then Char.ofNat 0x647 else c) = c := by
    intro c hc
    have h2 := h c hc
    simp only [cleanChar, Bool.and_eq_true, Bool.not_eq_true'] at h2
    rw [if_neg (by simp only [Bool.not_eq_true]; exact h2.2)]
  exact (List.map_congr_left hid).trans (List.map_id' y)

lemma dropInnerAlef_mem (w : Str) (c : Char) (hc : c ∈ dropInnerAlef w) : c ∈ w := by
  unfold dropInnerAlef at hc
  split_ifs at hc with h
  · exact hc
  · rcases List.mem_append.mp hc with h2 | h2
    · rcases List.mem_append.mp h2 with h3 | h3
      · exact List.take_subset 1 w h3
      · have h4 := List.mem_of_mem_filter h3
        have h5 := (List.dropLast_sublist _).subset h4
        exact List.mem_of_mem_drop h5
    · exact List.mem_of_mem_drop h2

lemma dropInnerAlef_ne_nil (w : Str) (h : w ≠ []) : dropInnerAlef w ≠ [] := by
  unfold dropInnerAlef
  split_ifs with h2
  · exact h
  · cases w with
    | nil => simp at h2
    | cons a t => simp

lemma dropInnerAlef_decomp (a b : Char) (u : Str) (hu : u ≠ []) :
    dropInnerAlef (a :: (u ++ [b])) =
      a :: (u.filter (fun c => !(c == alefChar)) ++ [b]) := by
  have hu1 : 0 < u.length := List.length_pos.mpr hu
  unfold dropInnerAlef
  rw [if_neg (by
    simp only [List.length_cons, List.length_append, List.length_singleton]
    omega)]
  have hl : (a :: (u ++ [b])).length - 1 = u.length + 1 := by simp
  rw [hl,
    show (a :: (u ++ [b])).take 1 = [a] from rfl,
    show (a :: (u ++ [b])).drop 1 = u ++ [b] from rfl,
    List.dropLast_concat,
    show (a :: (u ++ [b])).drop (u.length + 1) = (u ++ [b]).drop u.length from rfl,
    List.drop_left]
  rfl

lemma dropInnerAlef_idem (w : Str) : dropInnerAlef (dropInnerAlef w) = dropInnerAlef w := by
  by_cases h : w.length ≤ 2
  · have h1 : dropInnerAlef w = w := by rw [dropInnerAlef, if_pos h]
    rw [h1]
    exact h1
  · push_neg at h
    obtain ⟨a, t, rfl⟩ : ∃ a t, w = a :: t := by
      cases w with
      | nil => simp at h
      | cons a t => exact ⟨a, t, rfl⟩
    obtain ⟨u, b, rfl⟩ : ∃ u b, t = u ++ [b] := by
      rcases List.eq_nil_or_concat t with rfl | ⟨u, b, hc⟩
      · simp at h
      · exact ⟨u, b, by rw [hc, List.concat_eq_append]⟩
    have hu : u ≠ [] := by
      rintro rfl
      simp at h
    rw [dropInnerAlef_decomp a b u hu]
    by_cases h2 : u.filter (fun c => !(c == alefChar)) = []
    · rw [h2, List.nil_append]
      rw [dropInnerAlef, if_pos (by simp)]
    · rw [dropInnerAlef_decomp a b _ h2, List.filter_filter]
      have h3 : (fun c => (!(c == alefChar)) && (!(c == alefChar))) =
          (fun c => !(c == alefChar)) := funext fun c => Bool.and_self _
      rw [h3]

/-! ### Claim C3: conditional idempotence of normalizeArabic -/

lemma splitWS_mem_subset (s : Str) : ∀ w ∈ splitWS s, ∀ c ∈ w, c ∈ s := by
  induction s with
  | nil =>
    intro w hw c hc
    simp only [splitWS, List.mem_singleton] at hw
    subst hw
    simp at hc
  | cons a cs ih =>
    intro w hw c hc
    by_cases ha : wsChar a = true
    · cases cs with
      | nil =>
        rw [splitWS_ws_nil a ha] at hw
        rcases List.mem_cons.mp hw with rfl | hw
        · simp at hc
        · simp only [List.mem_singleton] at hw
          subst hw
          simp at hc
      | cons d ds =>
        by_cases hd : wsChar d = true
        · rw [splitWS_ws_ws a d ds ha hd] at hw
          exact List.mem_cons_of_mem a (ih w hw c hc)
        · have hd2 : wsChar d = false := by simpa using hd
          rw [splitWS_ws_nonws a d ds ha hd2] at hw
          rcases List.mem_cons.mp hw with rfl | hw
          · simp at hc
          · exact List.mem_cons_of_mem a (ih w hw c hc)
    · have ha2 : wsChar a = false := by simpa using ha
      obtain ⟨w0, tail, h1, h2⟩ := splitWS_nonws a cs ha2
      rw [h1] at hw
      rcases List.mem_cons.mp hw with rfl | hw
      · rcases List.mem_cons.mp hc with rfl | hc
        · simp
        · exact List.mem_cons_of_mem a (ih w0 (by rw [h2]; simp) c hc)
      · exact List.mem_cons_of_mem a (ih w (by rw [h2]; simp [hw]) c hc)

lemma splitWS_words_wsFree (s : Str) : ∀ w ∈ splitWS s, wsFree w := by
  obtain ⟨ws0, hg, hcase⟩ := splitWS_shape s
  intro w hw
  have hnil : wsFree ([] : Str) := by intro c hc; simp at hc
  rcases hcase with h | h | h | h <;> rw [h] at hw
  · exact (hg w hw).2
  · rcases List.mem_cons.mp hw with rfl | hw
    · exact hnil
    · exact (hg w hw).2
  · rcases List.mem_append.mp hw with hw | hw
    · exact (hg w hw).2
    · simp only [List.mem_singleton] at hw
      subst hw
      exact hnil
  · rcases List.mem_cons.mp hw with rfl | hw
    · exact hnil
    · rcases List.mem_append.mp hw with hw | hw
      · exact (hg w hw).2
      · simp only [List.mem_singleton] at hw
        subst hw
        exact hnil

lemma joinWS_mem (ps : List Str) (c : Char) (hc : c ∈ joinWS ps) :
    c = ' ' ∨ ∃ w ∈ ps, c ∈ w := by
  induction ps with
  | nil => simp [joinWS] at hc
  | cons p ps ih =>
    cases ps with
    | nil => exact Or.inr ⟨p, by simp, hc⟩
    | cons q rest =>
      rw [joinWS_cons_cons] at hc
      rcases List.mem_append.mp hc with h | h
      · exact Or.inr ⟨p, by simp, h⟩
      · rcases List.mem_cons.mp h with rfl | h
        · exact Or.inl rfl
        · rcases ih h with h | ⟨w, hw, hcw⟩
          · exact Or.inl h
          · exact Or.inr ⟨w, by simp [hw], hcw⟩

lemma delWords_wsFree (t : Str) : ∀ w ∈ (splitWS t).map dropInnerAlef, wsFree w := by
  intro w hw
  rcases List.mem_map.mp hw with ⟨w0, hw0, rfl⟩
  intro c hc
  exact splitWS_words_wsFree t w0 hw0 c (dropInnerAlef_mem w0 c hc)

/-- Closed form of the whole normalizeArabic pipeline: fold the character
stages, then per-word interior-alef removal on the nonempty words, joined by
single spaces. -/
lemma normalizeArabic_words (s : Str) : normalizeArabic s =
    joinWS (((splitWS (foldTaaMarbuta (foldAlefMaqsura (foldAlefVariants
      (applyMappings (stripDiacritics s)))))).map dropInnerAlef).filter
      (fun w => !w.isEmpty)) := by
  show trimWS (collapseWS (List.intercalate [' ']
    ((splitWS (foldTaaMarbuta (foldAlefMaqsura (foldAlefVariants
      (applyMappings (stripDiacritics s)))))).map dropInnerAlef))) = _
  rw [← joinWS_eq_intercalate, trim_collapse, wordsOf_joinWS _ (delWords_wsFree _)]

lemma normalizeArabic_chars_clean (s : Str) :
    ∀ c ∈ normalizeArabic s, cleanChar c = true := by
  intro c hc
  rw [normalizeArabic_words] at hc
  rcases joinWS_mem _ c hc with rfl | ⟨w, hw, hcw⟩
  · decide
  · rcases List.mem_map.mp (List.mem_of_mem_filter hw) with ⟨w0, hw0, rfl⟩
    exact stage5_clean s c
      (splitWS_mem_subset _ w0 hw0 c (dropInnerAlef_mem w0 c hcw))

lemma joinWS_del_fixed (rs : List Str)
    (hne : ∀ w ∈ rs, w ≠ []) (hfree : ∀ w ∈ rs, wsFree w)
    (himg : ∀ w ∈ rs, dropInnerAlef w = w) :
    joinWS (((splitWS (joinWS rs)).map dropInnerAlef).filter
      (fun w => !w.isEmpty)) = joinWS rs := by
  by_cases hnil : rs = []
  · subst hnil
    rfl
  · rw [splitWS_joinWS rs hnil hfree hne]
    have hmap : rs.map dropInnerAlef = rs :=
      (List.map_congr_left himg).trans (List.map_id' rs)
    rw [hmap, List.filter_eq_self.mpr
      (fun w hw => by simp [List.isEmpty_iff, hne w hw])]

/-- C3: the normalizer is not idempotent unconditionally (see the recorded
counterexample), but it is idempotent on every input whose normal form is a
fixed point of the spoken-letter mapping pass: that pass is the only stage
of normalizeArabic that can change an already-normalized string, because
normal forms contain no diacritics, no alef variants, no alef maqsura, no
taa marbuta, and their words are nonempty, whitespace-free fixed points of
the interior-alef removal. -/
theorem normalizeArabic_idempotent_on_mapping_fixed (s : Str)
    (h : applyMappings (normalizeArabic s) = normalizeArabic s) :
    normalizeArabic (normalizeArabic s) = normalizeArabic s := by
  have hclean := normalizeArabic_chars_clean s
  rw [normalizeArabic_words (normalizeArabic s), stripDiacritics_clean _ hclean, h,
    foldAlefVariants_clean _ hclean, foldAlefMaqsura_clean _ hclean,
    foldTaaMarbuta_clean _ hclean, normalizeArabic_words s]
  apply joinWS_del_fixed
  · intro w hw
    have := List.of_mem_filter hw
    simpa [List.isEmpty_iff] using this
  · intro w hw
    exact delWords_wsFree _ w (List.mem_of_mem_filter hw)
  · intro w hw
    rcases List.mem_map.mp (List.mem_of_mem_filter hw) with ⟨w0, hw0, rfl⟩
    exact dropInnerAlef_idem w0

/-- Witness for C3 at the concrete input بسم, whose normal form بسم is
untouched by the letter-name mappings. -/
theorem normalizeArabic_idempotent_on_mapping_fixed_witness :
    applyMappings (normalizeArabic "بسم".toList) = normalizeArabic "بسم".toList ∧
    normalizeArabic (normalizeArabic "بسم".toList) = normalizeArabic "بسم".toList :=
  ⟨by decide, normalizeArabic_idempotent_on_mapping_fixed _ (by decide)⟩

/-! ### Claim C10: interior-alef removal -/

/-- Two words that differ only by alefs strictly inside the word: both are
longer than two characters, they share the first character, the last
character, and the interior after removing every plain alef. -/
def sameModInnerAlef (u w : Str) : Prop :=
  2 < u.length ∧ 2 < w.length ∧ u.take 1 = w.take 1 ∧
  u.drop (u.length - 1) = w.drop (w.length - 1) ∧
  (u.drop 1).dropLast.filter (fun c => !(c == alefChar)) =
    (w.drop 1).dropLast.filter (fun c => !(c == alefChar))

/-- C10 counterexample to the claimed consequence: نون and نوان differ only
by an interior alef, yet they do not normalize to equal tokens, because the
spoken-letter mapping pass rewrites نون to ن before the interior-alef step
runs, while نوان reaches that step intact and becomes نون. -/
theorem interior_alef_tokens_cex :
    sameModInnerAlef "نون".toList "نوان".toList ∧
    normalizeArabic "نون".toList ≠ normalizeArabic "نوان".toList := by
  unfold sameModInnerAlef
  decide

lemma filter_map_del (l : List Str) :
    (l.map dropInnerAlef).filter (fun w => !w.isEmpty) =
    (l.filter (fun w => !w.isEmpty)).map dropInnerAlef := by
  induction l with
  | nil => rfl
  | cons w t ih =>
    rw [List.map_cons, List.filter_cons, List.filter_cons]
    by_cases h : w = []
    · subst h
      rw [show dropInnerAlef ([] : Str) = [] from rfl]
      simpa using ih
    · have hne : dropInnerAlef w ≠ [] := dropInnerAlef_ne_nil w h
      rw [if_pos (by simp [List.isEmpty_iff, hne]),
        if_pos (by simp [List.isEmpty_iff, h]), List.map_cons, ih]

/-- C10: on inputs that the earlier pipeline stages (diacritic stripping,
letter-name mappings, the three character folds) leave unchanged,
normalizeArabic is exactly per-word interior-alef removal over the
whitespace-separated words: words of length at most 2 are untouched, and a
longer word keeps its first and last characters and loses every plain alef
strictly inside.  The claim's further consequence — that two words
differing only by interior alefs always normalize to equal tokens — is
false in general (see the recorded counterexample). -/
theorem normalizeArabic_interior_alef_step (s : Str)
    (h1 : stripDiacritics s = s) (h2 : applyMappings s = s)
    (h3 : foldAlefVariants s = s) (h4 : foldAlefMaqsura s = s)
    (h5 : foldTaaMarbuta s = s) :
    normalizeArabic s = joinWS ((wordsOf s).map dropInnerAlef) ∧
    (∀ w : Str, w.length ≤ 2 → dropInnerAlef w = w) ∧
    (∀ w : Str, 2 < w.length → dropInnerAlef w =
      w.take 1 ++ ((w.drop 1).dropLast.filter (fun c => !(c == alefChar)))
        ++ w.drop (w.length - 1)) := by
  refine ⟨?_, ?_, ?_⟩
  · rw [normalizeArabic_words s, h1, h2, h3, h4, h5, wordsOf, filter_map_del]
  · intro w hw
    rw [dropInnerAlef, if_pos hw]
  · intro w hw
    rw [dropInnerAlef, if_neg (by omega)]

/-- Witness for C10 at the concrete input كتاب مبين: every hypothesis holds,
and the conclusion rewrites كتاب to كتب while leaving مبين unchanged. -/
theorem normalizeArabic_interior_alef_step_witness :
    (stripDiacritics "كتاب مبين".toList = "كتاب مبين".toList ∧
     applyMappings "كتاب مبين".toList = "كتاب مبين".toList ∧
     normalizeArabic "كتاب مبين".toList = "كتب مبين".toList) ∧
    (normalizeArabic "كتاب مبين".toList =
      joinWS ((wordsOf "كتاب مبين".toList).map dropInnerAlef) ∧
    (∀ w : Str, w.length ≤ 2 → dropInnerAlef w = w) ∧
    (∀ w : Str, 2 < w.length → dropInnerAlef w =
      w.take 1 ++ ((w.drop 1).dropLast.filter (fun c => !(c == alefChar)))
        ++ w.drop (w.length - 1))) :=
  ⟨⟨by decide, by decide, by decide⟩,
    normalizeArabic_interior_alef_step _ (by decide) (by decide) (by decide)
      (by decide) (by decide)⟩

/-! ### Claim C7: verse detection (src/lib/speech-to-text.ts, second document) -/

/-- A corpus verse as consumed by detectVerse: location, display text and
normalized text.  The JSON corpus itself is not among the sources, so the
verse list is a parameter. -/
structure QVerse where
  surah : Nat
  ayah : Nat
  text : Str
  textClean : Str
deriving DecidableEq

/-- The DetectedVerse result record of detectVerse. -/
structure DetectedVerse where
  surah : Nat
  ayah : Nat
  confidence : Int
  matchedText : Str
  verse : QVerse
deriving DecidableEq

/-- The suffix strictly after the first occurrence of w, if any: one pass of
the inner scanning loop of calculateSequentialBonus. -/
def afterFirst (w : Str) : List Str → Option (List Str)
  | [] => none
  | v :: vs => if v == w then some vs else afterFirst w vs

/-- The greedy in-order match count of calculateSequentialBonus: for each
input word in order, scan the verse words after the last match position;
on a hit advance that position, otherwise leave it unchanged. -/
def seqCount : List Str → List Str → Nat
  | [], _ => 0
  | w :: ws, rem =>
    match afterFirst w rem with
    | some rem2 => seqCount ws rem2 + 1
    | none => seqCount ws rem

/-- Model of calculateSequentialBonus. -/
def calculateSequentialBonus (inputWords verseWords : List Str) : ℚ :=
  if inputWords.isEmpty || verseWords.isEmpty then 0
  else (seqCount inputWords verseWords : ℚ) / (verseWords.length : ℚ)

/-- Model of calculateSimilarity: coverage (fraction of the verse's distinct
words found among the input's distinct words) weighted 0.7, plus the
sequential bonus weighted 0.3. -/
def calculateSimilarity (inputWords verseWords : List Str) : ℚ :=
  if inputWords.isEmpty || verseWords.isEmpty then 0
  else
    (((inputWords.dedup.filter (fun w => verseWords.contains w)).length : ℚ) /
        ((verseWords.dedup).length : ℚ)) * (7 / 10) +
      calculateSequentialBonus inputWords verseWords * (3 / 10)

/-- The similarity the loop of detectVerse computes for one verse. -/
def verseScore (iw : List Str) (v : QVerse) : ℚ :=
  calculateSimilarity iw (splitTokens v.textClean)

/-- The candidate loop of detectVerse: keep the candidate with strictly
greater score than the best so far, materializing the confidence
Math.round(score*100) at update time. -/
def detectVerseGo (iw : List Str) :
    List QVerse → Option DetectedVerse × ℚ → Option DetectedVerse × ℚ
  | [], acc => acc
  | v :: vs, acc =>
    let score := verseScore iw v
    if acc.2 < score then
      detectVerseGo iw vs
        (some ⟨v.surah, v.ayah, jsRound (score * 100), v.text, v⟩, score)
    else
      detectVerseGo iw vs acc

/-- Model of detectVerse (src/lib/speech-to-text.ts, second document): split
the normalized input, run the candidate loop, and reject a best match whose
confidence is below 30. -/
def detectVerse (recognizedText : Str) (versesToSearch : List QVerse) :
    Option DetectedVerse :=
  let inputWords := splitTokens (normalizeArabic recognizedText)
  if inputWords.isEmpty then none
  else if versesToSearch.isEmpty then none
  else
    match (detectVerseGo inputWords versesToSearch (none, 0)).1 with
    | none => none
    | some bm => if bm.confidence < 30 then none else some bm

/-- Modelled from the spec: the claimed contract of detectVerse, stated
non-iteratively — take the maximum similarity M over the corpus, pick the
first verse attaining it, and return it when M is positive and the rounded
confidence Math.round(M*100) reaches 30 (the claim's unrounded reading
"similarity*100 at least 30" is the part the counterexample refutes). -/
def detectVerseSpec (recognizedText : Str) (corpus : List QVerse) :
    Option DetectedVerse :=
  let iw := splitTokens (normalizeArabic recognizedText)
  if iw.isEmpty then none
  else
    let M := (corpus.map (verseScore iw)).foldl max 0
    if M ≤ 0 then none
    else
      match corpus.find? (fun v => decide (M ≤ verseScore iw v)) with
      | none => none
      | some v =>
        if jsRound (verseScore iw v * 100) < 30 then none
        else some ⟨v.surah, v.ayah, jsRound (verseScore iw v * 100), v.text, v⟩

lemma foldl_max_mem (l : List ℚ) : ∀ b, l.foldl max b = b ∨ l.foldl max b ∈ l := by
  induction l with
  | nil => intro b; exact Or.inl rfl
  | cons a l ih =>
    intro b
    rcases ih (max b a) with h | h
    · rcases max_choice b a with h2 | h2
      · exact Or.inl (by rw [List.foldl_cons, h, h2])
      · exact Or.inr (by rw [List.foldl_cons, h, h2]; simp)
    · exact Or.inr (by rw [List.foldl_cons]; simp [h])

lemma le_foldl_max (l : List ℚ) : ∀ b, b ≤ l.foldl max b := by
  induction l with
  | nil => intro b; exact le_refl b
  | cons a l ih =>
    intro b
    exact le_trans (le_max_left b a) (ih (max b a))

lemma detectVerseGo_fst (iw : List Str) : ∀ (vs : List QVerse)
    (best : Option DetectedVerse) (bs : ℚ),
    (detectVerseGo iw vs (best, bs)).1 =
      (if (vs.map (verseScore iw)).foldl max bs ≤ bs then best
       else
        match vs.find? (fun v =>
            decide ((vs.map (verseScore iw)).foldl max bs ≤ verseScore iw v)) with
        | none => best
        | some v => some ⟨v.surah, v.ayah, jsRound (verseScore iw v * 100),
            v.text, v⟩) := by
  intro vs
  induction vs with
  | nil =>
    intro best bs
    rw [detectVerseGo, List.map_nil, List.foldl_nil, if_pos (le_refl bs)]
  | cons v vs ih =>
    intro best bs
    rw [detectVerseGo]
    dsimp only
    rw [List.map_cons, List.foldl_cons]
    by_cases hlt : bs < verseScore iw v
    · rw [if_pos hlt, ih, max_eq_right (le_of_lt hlt)]
      have hM1 : verseScore iw v ≤ (vs.map (verseScore iw)).foldl max (verseScore iw v) :=
        le_foldl_max _ _
      have hRno : ¬ ((vs.map (verseScore iw)).foldl max (verseScore iw v) ≤ bs) :=
        fun hcon => absurd (le_trans hM1 hcon) (not_le.mpr hlt)
      by_cases hMs : (vs.map (verseScore iw)).foldl max (verseScore iw v) ≤ verseScore iw v
      · rw [if_pos hMs, if_neg hRno, List.find?_cons_of_pos _ (by exact decide_eq_true hMs)]
      · rw [if_neg hMs, if_neg hRno, List.find?_cons_of_neg _ (by simpa using hMs)]
        cases hf : vs.find? (fun v2 =>
            decide ((vs.map (verseScore iw)).foldl max (verseScore iw v) ≤ verseScore iw v2)) with
        | none =>
          rcases foldl_max_mem (vs.map (verseScore iw)) (verseScore iw v) with h | h
          · exact absurd (le_of_eq h) hMs
          · rcases List.mem_map.mp h with ⟨v2, hv2, hv2e⟩
            have := List.find?_eq_none.mp hf v2 hv2
            rw [hv2e] at this
            simp at this
        | some v2 => rfl
    · rw [if_neg hlt, ih, max_eq_left (not_lt.mp hlt)]
      by_cases hMs : (vs.map (verseScore iw)).foldl max bs ≤ bs
      · rw [if_pos hMs, if_pos hMs]
      · rw [if_neg hMs, if_neg hMs,
          List.find?_cons_of_neg _ (by
            simp only [decide_eq_true_eq]
            intro hcon
            exact hMs (le_trans hcon (not_lt.mp hlt)))]

/-- C7: the verse locator equals its specification contract with the
corrected threshold — it scores every candidate with
0.7*coverage + 0.3*sequentialBonus, keeps the first-seen candidate attaining
the strictly greatest similarity M, and returns it exactly when M is
positive and Math.round(M*100) is at least 30; returning none is a value,
not an exception.  (The claim's unrounded threshold "similarity*100 at
least 30" is refuted by the recorded counterexample.) -/
theorem detectVerse_first_strict_max (recognizedText : Str) (corpus : List QVerse) :
    detectVerse recognizedText corpus = detectVerseSpec recognizedText corpus := by
  unfold detectVerse detectVerseSpec
  dsimp only
  by_cases hiw : (splitTokens (normalizeArabic recognizedText)).isEmpty
  · rw [if_pos hiw, if_pos hiw]
  · rw [if_neg hiw, if_neg hiw]
    by_cases hc : corpus.isEmpty = true
    · have hc2 : corpus = [] := by simpa [List.isEmpty_iff] using hc
      subst hc2
      rw [if_pos hc, List.map_nil, List.foldl_nil, if_pos (le_refl (0 : ℚ))]
    · rw [if_neg hc, detectVerseGo_fst]
      by_cases hM : (corpus.map (verseScore (splitTokens (normalizeArabic recognizedText)))).foldl max 0 ≤ 0
      · rw [if_pos hM, if_pos hM]
      · rw [if_neg hM, if_neg hM]
        cases hf : corpus.find? (fun v =>
            decide ((corpus.map (verseScore (splitTokens (normalizeArabic recognizedText)))).foldl max 0 ≤
              verseScore (splitTokens (normalizeArabic recognizedText)) v)) with
        | none => rfl
        | some v => rfl

/-- One-verse corpus for the C7 threshold counterexample: 25 distinct
two-letter words untouched by normalization. -/
def cexVerseText : Str :=
  "بب بت بث بج بد تب تت تث تج تد ثب ثت ثث ثج ثد جب جت جث جج جد دب دت دث دج دد".toList

def cexVerse : QVerse := ⟨1, 1, cexVerseText, cexVerseText⟩

/-- Eight of the verse's words, ordered so that exactly six match in
greedy sequential order: similarity 0.7*(8/25) + 0.3*(6/25) = 0.296. -/
def cexInput : Str := "بث بت بج بد تب تت بب تث".toList

lemma cex_m : ((splitTokens (normalizeArabic cexInput)).dedup.filter
    (fun w => (splitTokens cexVerse.textClean).contains w)).length = 8 := by decide

lemma cex_d : ((splitTokens cexVerse.textClean).dedup).length = 25 := by decide

lemma cex_s : seqCount (splitTokens (normalizeArabic cexInput))
    (splitTokens cexVerse.textClean) = 6 := by decide

lemma cex_l : (splitTokens cexVerse.textClean).length = 25 := by decide

lemma cex_ne1 : (splitTokens (normalizeArabic cexInput)).isEmpty = false := by decide

lemma cex_ne2 : (splitTokens cexVerse.textClean).isEmpty = false := by decide

lemma cex_sim : calculateSimilarity (splitTokens (normalizeArabic cexInput))
    (splitTokens cexVerse.textClean) = 37 / 125 := by
  rw [calculateSimilarity, calculateSequentialBonus, cex_m, cex_d, cex_s, cex_l,
    cex_ne1, cex_ne2]
  norm_num

lemma cex_round : jsRound ((37 : ℚ) / 125 * 100) = 30 := by
  rw [jsRound, show ((37 : ℚ) / 125 * 100 + 1 / 2) = 301 / 10 by norm_num]
  have hle : (30 : ℤ) ≤ ((301 : ℚ) / 10).floor := Rat.le_floor.mpr (by norm_num)
  have hlt : ¬ ((31 : ℤ) ≤ ((301 : ℚ) / 10).floor) := fun hcon =>
    absurd (Rat.le_floor.mp hcon) (by norm_num)
  omega

/-- C7 counterexample to the unrounded threshold: the similarity is 0.296,
so similarity*100 = 29.6 is below 30, yet detectVerse returns the match
because the stored confidence Math.round(29.6) = 30 passes the cut. -/
theorem detectVerse_threshold_cex :
    detectVerse cexInput [cexVerse] ≠ none ∧
    calculateSimilarity (splitTokens (normalizeArabic cexInput))
      (splitTokens cexVerse.textClean) * 100 < 30 := by
  constructor
  · rw [detectVerse]
    rw [if_neg (by rw [cex_ne1]; simp), if_neg (by simp), detectVerseGo]
    rw [show verseScore (splitTokens (normalizeArabic cexInput)) cexVerse =
        37 / 125 from cex_sim]
    rw [if_pos (by norm_num)]
    rw [detectVerseGo]
    dsimp only
    rw [cex_round]
    rw [if_neg (by norm_num)]
    simp
  · rw [cex_sim]
    norm_num
